import Mathlib

/-!
Verification of the arc-stash-planner reconciliation pipeline.

This file gives a shallow embedding, in Lean 4, of the server-side core of the
repository: the normalizer (`server/services/normalize.ts`), the entity
resolver and diff engine (`server/services/matchAndDiff.ts`), the memoized
TTL cache (`server/lib/cache.ts`), the pipeline orchestrator
(`server/services/pipeline.ts`), and the MetaForge snapshot store
(`server/services/metaforgeStore.ts`), together with theorems settling the
frozen claims about them.

Modelling conventions:
- JavaScript numbers are modelled as rationals (`ℚ`); the code only performs
  arithmetic (rounding, sums, ratios) whose observable behaviour on the
  magnitudes involved agrees with exact rational arithmetic.  `NaN` inputs are
  modelled as the absent value where the code treats them that way.
- JavaScript strings are Lean `String`s.  `String.prototype.localeCompare`
  (called with no arguments, hence under Node's default ICU root collation) is
  modelled for strings of ASCII letters, digits and spaces as a two-pass
  collation: a primary pass comparing the lowercased code points
  lexicographically and, when those are equal, a tertiary pass ordering
  lowercase before uppercase at the first differing position.
- `JSON` payloads are modelled by the inductive type `Json`; a missing object
  property (`undefined`) is `Option.none`, the JSON literal `null` is
  `Json.null`.
- JavaScript `Map`s that are only ever read through `get` are modelled as
  functions into `Option`.
- `Array.prototype.sort` (stable since ES2019) is modelled by the stable
  `List.insertionSort` applied to the non-strict comparison `comparator ≤ 0`
  (any stable sort under the same comparison is the same function).
-/

/-- One pass of lexicographic comparison of two lists of naturals, mirroring
the position-by-position comparison a collator performs on one weight level. -/
def lexNat : List ℕ → List ℕ → Ordering
  | [], [] => .eq
  | [], _ :: _ => .lt
  | _ :: _, [] => .gt
  | a :: as, b :: bs =>
    if a < b then .lt
    else if b < a then .gt
    else lexNat as bs

/-- Lowercasing of a string modelled on the character list, standing in for
JavaScript `String.prototype.toLowerCase` (faithful for ASCII input). -/
def lowerStr (s : String) : String :=
  String.mk (s.data.map Char.toLower)

/-- Structural model of string trimming (JavaScript `trim`, and the `trim`
calls of the TypeScript helpers): drop whitespace from both ends. -/
def strTrim (s : String) : String :=
  String.mk (((s.data.dropWhile Char.isWhitespace).reverse.dropWhile Char.isWhitespace).reverse)

/-- Structural test that the second list is an initial segment of the first. -/
def charsLead : List Char → List Char → Bool
  | _, [] => true
  | [], _ :: _ => false
  | a :: as, b :: bs => a = b && charsLead as bs

/-- Structural model of JavaScript `String.prototype.startsWith`. -/
def strStartsWith (s p : String) : Bool :=
  charsLead s.data p.data

/-- Primary collation key: the lowercased code points. -/
def primaryKey (s : String) : List ℕ :=
  s.data.map (fun c => c.toLower.toNat)

/-- Tertiary collation key: 0 for a non-uppercase character, 1 for an
uppercase one, so that within a primary tie lowercase sorts first. -/
def caseBits (s : String) : List ℕ :=
  s.data.map (fun c => if c.isUpper then 1 else 0)

/-- The two collation passes combined: the primary comparison decides unless
it ties, in which case the tertiary comparison decides. -/
def lcOrd (x y : String) : Ordering :=
  match lexNat (primaryKey x) (primaryKey y) with
  | .eq => lexNat (caseBits x) (caseBits y)
  | o => o

/-- Rendering of an `Ordering` as the sign `localeCompare` returns. -/
def ordToInt : Ordering → Int
  | .lt => -1
  | .gt => 1
  | .eq => 0

/-- Model of JavaScript `x.localeCompare(y)` under Node's default ICU root
collation, restricted to strings of ASCII letters, digits and spaces:
compare the primary keys; on a tie compare the case bits (lowercase before
uppercase at the first difference). -/
def localeCompare (x y : String) : Int :=
  ordToInt (lcOrd x y)

/-- JavaScript `Math.round(q * 1000) / 1000` (round half toward positive
infinity), used for the fuzzy-match confidence. -/
def round3 (q : ℚ) : ℚ :=
  ((⌊q * 1000 + 1 / 2⌋ : ℤ) : ℚ) / 1000

/-- JavaScript `Math.round(q * 10000) / 10000`, used by the diff engine to
normalize `value` and `weight` before comparison. -/
def round4 (q : ℚ) : ℚ :=
  ((⌊q * 10000 + 1 / 2⌋ : ℤ) : ℚ) / 10000

/-- Dynamic JSON values as exchanged with the providers.  A missing object
property is represented by `Option.none` at use sites, not by a constructor. -/
inductive Json where
  | null : Json
  | bool (b : Bool) : Json
  | num (q : ℚ) : Json
  | str (s : String) : Json
  | arr (elems : List Json) : Json
  | obj (fields : List (String × Json)) : Json

/-- Property access `value.f` on a dynamic value: only plain objects carry
properties in the payloads at hand; anything else yields `undefined`. -/
def Json.getField : Json → String → Option Json
  | .obj fields, key => (fields.find? (fun p => p.1 = key)).map (·.2)
  | _, _ => none

/-- JavaScript truthiness test on a dynamic value (`NaN` does not arise in the
rational model). -/
def Json.falsy : Json → Bool
  | .null => true
  | .bool b => !b
  | .num q => q = 0
  | .str s => s = ""
  | _ => false

/-- The test `value && typeof value === 'object'`: a non-null object or array. -/
def Json.isObjLike : Json → Bool
  | .obj _ => true
  | .arr _ => true
  | _ => false

/-- Accumulate a decimal digit string into a natural number. -/
def digitsToNat (cs : List Char) : ℕ :=
  cs.foldl (fun acc c => acc * 10 + (c.toNat - '0'.toNat)) 0

/-- Test that every character is a decimal digit. -/
def allDigits (cs : List Char) : Bool :=
  cs.all (fun c => '0' ≤ c ∧ c ≤ '9')

/-- Split a character list at its first dot, keeping everything after it
(a second dot will fail the digit test downstream). -/
def splitDot : List Char → List Char × Option (List Char)
  | [] => ([], none)
  | c :: r => if c = '.' then ([], some r) else
      let p := splitDot r
      (c :: p.1, p.2)

/-- Model of JavaScript `Number(string)` restricted to an optional sign
followed by decimal digits with an optional fractional part, after trimming;
the empty (or all-whitespace) string parses to 0; any other shape (hex,
exponent, `Infinity`, garbage) is treated as `NaN`, i.e. `none`. -/
def jsNumberOfString (s : String) : Option ℚ :=
  let t := (strTrim s).data
  if t = [] then some 0
  else
    let signAndRest : ℚ × List Char :=
      match t with
      | '-' :: r => (-1, r)
      | '+' :: r => (1, r)
      | r => (1, r)
    let sign := signAndRest.1
    match splitDot signAndRest.2 with
    | (intPart, none) =>
      if intPart ≠ [] ∧ allDigits intPart then some (sign * digitsToNat intPart) else none
    | (intPart, some fracPart) =>
      if (intPart ≠ [] ∨ fracPart ≠ []) ∧ allDigits intPart ∧ allDigits fracPart then
        some (sign * ((digitsToNat intPart : ℚ) +
          (digitsToNat fracPart : ℚ) / ((10 : ℚ) ^ fracPart.length)))
      else none

/-- The `toStringOrUndefined` helper of `normalize.ts` (and, up to the
`null`/`undefined` distinction that the callers never observe, `textOrNull`
of the snapshot store): a string input is trimmed and kept when non-empty. -/
def toStringOrUndefined : Option Json → Option String
  | some (.str s) =>
    let t := strTrim s
    if t = "" then none else some t
  | _ => none

/-- The `toNumberOrUndefined` helper of `normalize.ts` (and
`numberOrUndefined` of the snapshot store): a finite number is kept, a string
is parsed with `Number(...)` and kept when finite. -/
def toNumberOrUndefined : Option Json → Option ℚ
  | some (.num q) => some q
  | some (.str s) => jsNumberOfString s
  | _ => none

/-- The `nameFromUnknown` helper of `normalize.ts`: accept a plain string, or
a localized-name object preferring its `en` entry and falling back to the
first usable value in insertion order. -/
def nameFromUnknown (v : Option Json) : Option String :=
  match toStringOrUndefined v with
  | some s => some s
  | none =>
    match v with
    | some (.obj fields) =>
      match toStringOrUndefined (Json.getField (.obj fields) "en") with
      | some s => some s
      | none =>
        (fields.filterMap (fun p => toStringOrUndefined (some p.2))).head?
    | _ => none

/-- The four provider identifiers (`server/types.ts`). -/
inductive SourceId where
  | ardb : SourceId
  | metaforge : SourceId
  | raidtheory : SourceId
  | mahcks : SourceId
deriving DecidableEq

/-- Rendering of a provider identifier, as it appears in template strings. -/
def SourceId.str : SourceId → String
  | .ardb => "ardb"
  | .metaforge => "metaforge"
  | .raidtheory => "raidtheory"
  | .mahcks => "mahcks"

/-- One ingredient or output of a recipe (`server/types.ts`). -/
structure RecipePart where
  itemId : Option String
  name : Option String
  amount : ℚ
deriving DecidableEq

/-- One provider's normalized view of one item (`server/types.ts`).  The
opaque `raw` payload is retained by the code only for display and audit and is
never read by the resolver or the diff engine, so it is omitted here. -/
structure SourceItem where
  sourceId : SourceId
  sourceItemId : Option String
  name : Option String
  type : Option String
  rarity : Option String
  value : Option ℚ
  weight : Option ℚ
  inputs : Option (List RecipePart)
  outputs : Option (List RecipePart)
deriving DecidableEq

/-- How one provider's record was matched into a canonical item. -/
inductive MatchMethod where
  | exact : MatchMethod
  | fuzzy : MatchMethod
  | nomatch : MatchMethod
deriving DecidableEq

/-- Match provenance for one provider (`server/types.ts`). -/
structure MatchDetail where
  method : MatchMethod
  confidence : ℚ
deriving DecidableEq

/-- The per-field difference flags of a diff report (`server/types.ts`). -/
structure FieldDiffers where
  name : Bool
  type : Bool
  rarity : Bool
  value : Bool
  weight : Bool
deriving DecidableEq

/-- The diff report attached to a canonical item (`server/types.ts`).
Severity is a natural number because the code only ever adds non-negative
weights and clamps at 100. -/
structure DiffReport where
  missingIn : List SourceId
  fieldDiffers : FieldDiffers
  recipeDiffers : Bool
  severity : ℕ
  explanation : List String
deriving DecidableEq

/-- A resolved canonical entity (`server/types.ts`).  The TypeScript
`Partial<Record<SourceId, ...>>` maps are modelled as functions into `Option`,
which makes "at most one `SourceItem` per provider" structural. -/
structure CanonicalItem where
  canonicalId : String
  nameKey : String
  displayName : String
  bySource : SourceId → Option SourceItem
  matchDetails : SourceId → Option MatchDetail
  diffReport : DiffReport

/-- Per-provider run metadata (`server/types.ts`). -/
structure SourceSummary where
  sourceId : SourceId
  fetchedAt : String
  versionOrCommit : String
  itemCount : ℕ
  error : Option String
deriving DecidableEq

/-- The raw result of one provider fetch (`server/types.ts`). -/
structure SourceFetchResult where
  sourceId : SourceId
  fetchedAt : String
  versionOrCommit : String
  itemsRaw : List Json

/-- The pipeline response shape (`server/types.ts`). -/
structure DiffDataResponse where
  generatedAt : String
  enabledSources : List SourceId
  sourceSummaries : List SourceSummary
  canonicalItems : List CanonicalItem

/-- The entry loop of the array branch of `normalizeRecipeParts`
(`normalize.ts`): each object-like entry yields a part when it carries an id
or a usable name; the amount falls back through `amount`, `quantity`, `count`
and finally 1. -/
def recipePartsOfArray (entries : List Json) : List RecipePart :=
  entries.filterMap (fun entry =>
    if entry.isObjLike then
      let nested :=
        match entry.getField "item" with
        | some v => if v.isObjLike then some v else none
        | none => none
      let nestedComponent :=
        match entry.getField "component" with
        | some v => if v.isObjLike then some v else none
        | none => none
      let amount :=
        ((toNumberOrUndefined (entry.getField "amount")).orElse (fun _ =>
          (toNumberOrUndefined (entry.getField "quantity")).orElse (fun _ =>
            toNumberOrUndefined (entry.getField "count")))).getD 1
      let itemId :=
        (toStringOrUndefined (entry.getField "itemId")).orElse (fun _ =>
          (toStringOrUndefined (entry.getField "id")).orElse (fun _ =>
            (toStringOrUndefined (nested.bind (·.getField "id"))).orElse (fun _ =>
              toStringOrUndefined (nestedComponent.bind (·.getField "id")))))
      let name :=
        (nameFromUnknown (entry.getField "name")).orElse (fun _ =>
          (nameFromUnknown (entry.getField "itemName")).orElse (fun _ =>
            (nameFromUnknown (nested.bind (·.getField "name"))).orElse (fun _ =>
              nameFromUnknown (nestedComponent.bind (·.getField "name")))))
      if itemId.isNone ∧ name.isNone then none
      else some { itemId := itemId, name := name, amount := amount }
    else none)

/-- The comparison used to sort the array-branch parts: lowercased
`itemId ?? name ?? ''` keys under `localeCompare`. -/
abbrev recipePartLeLower (a b : RecipePart) : Prop :=
  localeCompare (lowerStr ((a.itemId.getD (a.name.getD ""))))
      (lowerStr ((b.itemId.getD (b.name.getD "")))) ≤ 0

/-- The comparison used to sort the map-branch parts: raw `itemId ?? ''` keys
under `localeCompare`. -/
abbrev recipePartLeRaw (a b : RecipePart) : Prop :=
  localeCompare (a.itemId.getD "") (b.itemId.getD "") ≤ 0

/-- The entry loop of the map branch of `normalizeRecipeParts`: each key of
the id-to-amount object yields a part when the amount parses to a number that
is truthy (non-zero) and positive. -/
def recipePartsOfMap (fields : List (String × Json)) : List RecipePart :=
  fields.filterMap (fun p =>
    match toNumberOrUndefined (some p.2) with
    | none => none
    | some q =>
      if q = 0 ∨ q ≤ 0 then none
      else some { itemId := some p.1, name := none, amount := q })

/-- `normalizeRecipeParts` (`normalize.ts`): accept either an array of entry
objects or an id-to-amount map, sort the collected parts, and return them
when non-empty.  The argument is `Option Json` because callers pass possibly
missing properties. -/
def normalizeRecipeParts (value : Option Json) : Option (List RecipePart) :=
  match value with
  | none => none
  | some v =>
    if v.falsy then none
    else
      match v with
      | .arr entries =>
        let parts := (recipePartsOfArray entries).insertionSort recipePartLeLower
        if parts.length > 0 then some parts else none
      | .obj fields =>
        let parts := (recipePartsOfMap fields).insertionSort recipePartLeRaw
        if parts.length > 0 then some parts else none
      | _ => none

/-- `normalizeArdbItem` (`normalize.ts`). -/
def normalizeArdbItem (raw : Json) : SourceItem :=
  let sourceItemId := toStringOrUndefined (raw.getField "id")
  let name := nameFromUnknown (raw.getField "name")
  let crafting := raw.getField "craftingRequirement"
  let requiredItems :=
    match crafting.bind (·.getField "requiredItems") with
    | some (.arr l) => some (Json.arr l)
    | _ => none
  let inputs :=
    match normalizeRecipeParts requiredItems with
    | some parts => some parts
    | none => normalizeRecipeParts (raw.getField "recipe")
  let outputs :=
    match sourceItemId, crafting with
    | some sid, some c =>
      if c.falsy then none
      else
        let outputAmount := (toNumberOrUndefined (c.getField "outputAmount")).getD 1
        some [{ itemId := some sid, name := name, amount := outputAmount }]
    | _, _ => none
  { sourceId := .ardb
    sourceItemId := sourceItemId
    name := name
    type := toStringOrUndefined (raw.getField "type")
    rarity := toStringOrUndefined (raw.getField "rarity")
    value := toNumberOrUndefined (raw.getField "value")
    weight := toNumberOrUndefined (raw.getField "weight")
    inputs := inputs
    outputs := outputs }

/-- `normalizeMetaForgeItem` (`normalize.ts`). -/
def normalizeMetaForgeItem (raw : Json) : SourceItem :=
  let sourceItemId := toStringOrUndefined (raw.getField "id")
  let name := nameFromUnknown (raw.getField "name")
  let statBlock := raw.getField "stat_block"
  let inputs :=
    ((normalizeRecipeParts (raw.getField "components")).orElse (fun _ =>
      (normalizeRecipeParts (raw.getField "recipe")).orElse (fun _ =>
        normalizeRecipeParts (raw.getField "ingredients"))))
  let outputs0 :=
    (normalizeRecipeParts (raw.getField "outputs")).orElse (fun _ =>
      normalizeRecipeParts (raw.getField "output"))
  let outputs :=
    match outputs0, sourceItemId, inputs with
    | none, some sid, some _ => some [{ itemId := some sid, name := name, amount := 1 }]
    | o, _, _ => o
  { sourceId := .metaforge
    sourceItemId := sourceItemId
    name := name
    type := (toStringOrUndefined (raw.getField "item_type")).orElse (fun _ =>
      toStringOrUndefined (raw.getField "type"))
    rarity := toStringOrUndefined (raw.getField "rarity")
    value := toNumberOrUndefined (raw.getField "value")
    weight := (toNumberOrUndefined (statBlock.bind (·.getField "weight"))).orElse (fun _ =>
      toNumberOrUndefined (raw.getField "weight"))
    inputs := inputs
    outputs := outputs }

/-- `normalizeRaidTheoryLikeItem` (`normalize.ts`), shared by the
`raidtheory` and `mahcks` providers. -/
def normalizeRaidTheoryLikeItem (sourceId : SourceId) (raw : Json) : SourceItem :=
  let sourceItemId := toStringOrUndefined (raw.getField "id")
  let name := nameFromUnknown (raw.getField "name")
  let inputs := normalizeRecipeParts (raw.getField "recipe")
  let outputs :=
    match inputs, sourceItemId with
    | some _, some sid => some [{ itemId := some sid, name := name, amount := 1 }]
    | _, _ => none
  { sourceId := sourceId
    sourceItemId := sourceItemId
    name := name
    type := toStringOrUndefined (raw.getField "type")
    rarity := toStringOrUndefined (raw.getField "rarity")
    value := toNumberOrUndefined (raw.getField "value")
    weight := (toNumberOrUndefined (raw.getField "weightKg")).orElse (fun _ =>
      toNumberOrUndefined (raw.getField "weight"))
    inputs := inputs
    outputs := outputs }

/-- `normalizeSourceFetch` (`normalize.ts`): keep the object-like raw records
and map each through the provider's normalizer. -/
def normalizeSourceFetch (result : SourceFetchResult) : List SourceItem :=
  (result.itemsRaw.filter (·.isObjLike)).map (fun raw =>
    match result.sourceId with
    | .ardb => normalizeArdbItem raw
    | .metaforge => normalizeMetaForgeItem raw
    | .raidtheory => normalizeRaidTheoryLikeItem .raidtheory raw
    | .mahcks => normalizeRaidTheoryLikeItem .mahcks raw)

/-- Collect the maximal space-free words of a character list, the accumulator
holding the current word reversed. -/
def collectWords : List Char → List Char → List String
  | [], acc => if acc = [] then [] else [String.mk acc.reverse]
  | c :: cs, acc =>
    if c = ' ' then
      if acc = [] then collectWords cs []
      else String.mk acc.reverse :: collectWords cs []
    else collectWords cs (c :: acc)

/-- `normalizeNameForMatch` (`matchAndDiff.ts`): lowercase, replace every run
of characters outside `[a-z0-9]` by a single space, and trim.  The `NFKD`
decomposition step is modelled as the identity, which is faithful for ASCII
names; collecting the space-separated words and re-joining them is equivalent
to the replace-runs/trim/collapse chain of the source. -/
def normalizeNameForMatch (value : String) : String :=
  let replaced := (lowerStr value).data.map (fun c =>
    if ('a' ≤ c ∧ c ≤ 'z') ∨ ('0' ≤ c ∧ c ≤ '9') then c else ' ')
  String.intercalate " " (collectWords replaced [])

/-- `bigrams` (`matchAndDiff.ts`): character 2-grams of the value padded with
one boundary space on each side. -/
def bigrams (value : String) : List String :=
  let normalized := ' ' :: (value.data ++ [' '])
  (normalized.zip normalized.tail).map (fun p => String.mk [p.1, p.2])

/-- The overlap loop of `similarity` (`matchAndDiff.ts`): the source builds a
count map of the left bigrams and walks the right bigrams decrementing; this
is modelled by walking the right bigrams while consuming matched tokens from
the remaining left multiset (`count > 0` is exactly membership in the
remainder). -/
def countOverlap (leftBigrams rightBigrams : List String) : ℕ :=
  (rightBigrams.foldl
    (fun (acc : ℕ × List String) token =>
      if token ∈ acc.2 then (acc.1 + 1, acc.2.erase token) else acc)
    (0, leftBigrams)).1

/-- `similarity` (`matchAndDiff.ts`): bigram Dice similarity with multiset
intersection, with the source's early returns for equal and empty inputs. -/
def similarity (left right : String) : ℚ :=
  if left = right then 1
  else if left = "" ∨ right = "" then 0
  else
    let leftBigrams := bigrams left
    let rightBigrams := bigrams right
    if leftBigrams.length = 0 ∨ rightBigrams.length = 0 then 0
    else
      (2 * countOverlap leftBigrams rightBigrams : ℚ) /
        (leftBigrams.length + rightBigrams.length)

/-- `normalizeText` (`matchAndDiff.ts`): a falsy (absent or empty) value is
absent; otherwise trim and keep, lowercased, when non-empty. -/
def normalizeText (value : Option String) : Option String :=
  match value with
  | none => none
  | some s =>
    if s = "" then none
    else
      let trimmed := strTrim s
      if trimmed.data.length > 0 then some (lowerStr trimmed) else none

/-- `normalizeNumber` (`matchAndDiff.ts`): round a present value to 4 decimal
places (`NaN`, which the rational model cannot represent, is documented as
absent by the source). -/
def normalizeNumber (value : Option ℚ) : Option ℚ :=
  value.map round4

/-- `recipePartKey` (`matchAndDiff.ts`). -/
def recipePartKey (part : RecipePart) : String :=
  lowerStr (part.itemId.getD (part.name.getD ""))

/-- Injective rendering of a rational, standing in for JavaScript
number-to-string conversion inside template strings; only its injectivity is
relevant to the behaviour under study. -/
def jsNumToString (q : ℚ) : String :=
  toString q

/-- The sort-render-join applied to the `inputs` and `outputs` lists inside
`recipeSignature` (`matchAndDiff.ts`). -/
def renderRecipeParts (parts : List RecipePart) : String :=
  String.intercalate "|"
    ((parts.insertionSort (fun a b => localeCompare (recipePartKey a) (recipePartKey b) ≤ 0)).map
      (fun part => recipePartKey part ++ ":" ++ jsNumToString part.amount))

/-- `recipeSignature` (`matchAndDiff.ts`): `"__missing__"` for an absent
item, the empty signature when both rendered lists are falsy (absent or
empty), and the bracketed rendering otherwise. -/
def recipeSignature (item : Option SourceItem) : String :=
  match item with
  | none => "__missing__"
  | some it =>
    let inputsStr := it.inputs.map renderRecipeParts
    let outputsStr := it.outputs.map renderRecipeParts
    if inputsStr.getD "" = "" ∧ outputsStr.getD "" = "" then ""
    else "in[" ++ inputsStr.getD "" ++ "]out[" ++ outputsStr.getD "" ++ "]"

/-- `differsByValues` (`matchAndDiff.ts`): the source collects the normalized
values, keeps the defined ones, and reports a difference when the defined
values are not all equal (`Set` of their JSON renderings has size over 1, here
`dedup` under decidable equality) or when some value was dropped by the
normalizer. -/
def differsByValues {α β : Type} [DecidableEq β]
    (values : List (Option α)) (normalizer : Option α → Option β) : Bool :=
  let normalized := values.map normalizer
  let defined := normalized.filterMap id
  if defined.isEmpty then false
  else if 1 < defined.dedup.length then true
  else decide (defined.length ≠ normalized.length)

/-- `formatSourceValue` (`matchAndDiff.ts`) applied to a string field. -/
def formatSourceValueStr (value : Option String) : String :=
  match value with
  | none => "-"
  | some s => if s = "" then "-" else s

/-- `formatSourceValue` (`matchAndDiff.ts`) applied to a numeric field. -/
def formatSourceValueNum (value : Option ℚ) : String :=
  match value with
  | none => "-"
  | some q => jsNumToString q

/-- `buildDiffReport` (`matchAndDiff.ts`). -/
def buildDiffReport (item : CanonicalItem) (enabledSources : List SourceId) : DiffReport :=
  let presentSources := enabledSources.filter (fun sourceId => (item.bySource sourceId).isSome)
  let missingIn := enabledSources.filter (fun sourceId => (item.bySource sourceId).isNone)
  let names := presentSources.map (fun sourceId => (item.bySource sourceId).bind (·.name))
  let types := presentSources.map (fun sourceId => (item.bySource sourceId).bind (·.type))
  let rarities := presentSources.map (fun sourceId => (item.bySource sourceId).bind (·.rarity))
  let values := presentSources.map (fun sourceId => (item.bySource sourceId).bind (·.value))
  let weights := presentSources.map (fun sourceId => (item.bySource sourceId).bind (·.weight))
  let recipes := presentSources.map (fun sourceId => some (recipeSignature (item.bySource sourceId)))
  let fieldDiffers : FieldDiffers :=
    { name := differsByValues names normalizeText
      type := differsByValues types normalizeText
      rarity := differsByValues rarities normalizeText
      value := differsByValues values normalizeNumber
      weight := differsByValues weights normalizeNumber }
  let recipeDiffers :=
    differsByValues recipes (fun value => value.bind (fun s => if s = "" then none else some s))
  let severity0 : ℕ :=
    missingIn.length * 18 +
      (if fieldDiffers.name then 10 else 0) +
      (if fieldDiffers.type then 8 else 0) +
      (if fieldDiffers.rarity then 8 else 0) +
      (if fieldDiffers.value then 12 else 0) +
      (if fieldDiffers.weight then 12 else 0) +
      (if recipeDiffers then 20 else 0)
  let severity := min 100 severity0
  let fieldLine := fun (label : String) (get : SourceItem → Option String) =>
    label ++ " differs: " ++
      String.intercalate ", " (enabledSources.map (fun sourceId =>
        sourceId.str ++ "=" ++ formatSourceValueStr ((item.bySource sourceId).bind get)))
  let numLine := fun (label : String) (get : SourceItem → Option ℚ) =>
    label ++ " differs: " ++
      String.intercalate ", " (enabledSources.map (fun sourceId =>
        sourceId.str ++ "=" ++ formatSourceValueNum ((item.bySource sourceId).bind get)))
  let explanation :=
    (if missingIn.length > 0 then
      ["Missing in: " ++ String.intercalate ", " (missingIn.map SourceId.str)]
    else []) ++
    (if fieldDiffers.name then [fieldLine "Name" (·.name)] else []) ++
    (if fieldDiffers.type then [fieldLine "Type" (·.type)] else []) ++
    (if fieldDiffers.rarity then [fieldLine "Rarity" (·.rarity)] else []) ++
    (if fieldDiffers.value then [numLine "Value" (·.value)] else []) ++
    (if fieldDiffers.weight then [numLine "Weight" (·.weight)] else []) ++
    (if recipeDiffers then ["Recipe differs (inputs/outputs are not equivalent)."] else [])
  { missingIn := missingIn
    fieldDiffers := fieldDiffers
    recipeDiffers := recipeDiffers
    severity := severity
    explanation := explanation }

/-- `getDisplayName` (`matchAndDiff.ts`): `name ?? sourceItemId ?? synthetic`. -/
def getDisplayName (item : SourceItem) (fallbackIndex : ℕ) : String :=
  item.name.getD (item.sourceItemId.getD
    (item.sourceId.str ++ "-item-" ++ toString fallbackIndex))

/-- `getNameKey` (`matchAndDiff.ts`): the normalized name when it is usable,
otherwise an id-key built from the source item id (lowercased) or the item's
index; the truthiness tests of the source skip empty strings. -/
def getNameKey (item : SourceItem) (fallbackIndex : ℕ) : String :=
  let fromName : Option String :=
    match item.name with
    | some n =>
      if n = "" then none
      else
        let normalized := normalizeNameForMatch n
        if normalized = "" then none else some normalized
    | none => none
  match fromName with
  | some key => key
  | none =>
    match item.sourceItemId with
    | some sid =>
      if sid = "" then "id:" ++ item.sourceId.str ++ ":" ++ toString fallbackIndex
      else "id:" ++ item.sourceId.str ++ ":" ++ lowerStr sid
    | none => "id:" ++ item.sourceId.str ++ ":" ++ toString fallbackIndex

/-- The mutable state of one `mergeAndDiffItems` run: the canonical items
built so far and the exact-match index from name key to the canonical indices
registered under it (a JavaScript `Map` read only through `get(k) ?? []`,
modelled as a total function). -/
structure ResolveState where
  canonicalItems : List CanonicalItem
  nameIndex : String → List ℕ

/-- The exact-match scan of `mergeAndDiffItems`: walk the indices registered
under the name key and pick the first whose canonical item has no entry yet
for this provider. -/
def findExact (items : List CanonicalItem) (candidates : List ℕ) (sourceId : SourceId) :
    Option ℕ :=
  match candidates with
  | [] => none
  | candidateIndex :: rest =>
    match items.get? candidateIndex with
    | some candidate =>
      if (candidate.bySource sourceId).isNone then some candidateIndex
      else findExact items rest sourceId
    | none => findExact items rest sourceId

/-- The fuzzy-fallback scan of `mergeAndDiffItems`, carrying the running
`bestIndex`/`bestScore` pair: a candidate is skipped when it already has an
entry for this provider or carries an id-key, and the best pair is replaced
only on a strictly greater score. -/
def fuzzyLoop (sourceId : SourceId) (nameKey : String) :
    List (ℕ × CanonicalItem) → Option ℕ → ℚ → Option ℕ × ℚ
  | [], bestIndex, bestScore => (bestIndex, bestScore)
  | (candidateIndex, candidate) :: rest, bestIndex, bestScore =>
    if (candidate.bySource sourceId).isSome then
      fuzzyLoop sourceId nameKey rest bestIndex bestScore
    else if strStartsWith candidate.nameKey "id:" then
      fuzzyLoop sourceId nameKey rest bestIndex bestScore
    else
      let score := similarity nameKey candidate.nameKey
      if score > bestScore then fuzzyLoop sourceId nameKey rest (some candidateIndex) score
      else fuzzyLoop sourceId nameKey rest bestIndex bestScore

/-- The fuzzy fallback over all existing canonical items. -/
def findFuzzy (items : List CanonicalItem) (sourceId : SourceId) (nameKey : String) :
    Option ℕ × ℚ :=
  fuzzyLoop sourceId nameKey items.enum none 0

/-- The assignment branch of `mergeAndDiffItems`: store the item and its
match detail on the canonical item at the given index. -/
def assignTo (st : ResolveState) (i : ℕ) (sourceId : SourceId) (item : SourceItem)
    (method : MatchMethod) (confidence : ℚ) : ResolveState :=
  match st.canonicalItems.get? i with
  | some c =>
    { st with
      canonicalItems := st.canonicalItems.set i
        { c with
          bySource := fun s => if s = sourceId then some item else c.bySource s
          matchDetails := fun s =>
            if s = sourceId then some { method := method, confidence := confidence }
            else c.matchDetails s } }
  | none => st

/-- The creation branch of `mergeAndDiffItems`: push a fresh canonical item
seeded with this provider's record and register its name key in the
exact-match index. -/
def pushNew (st : ResolveState) (sourceId : SourceId) (item : SourceItem)
    (displayName nameKey : String) : ResolveState :=
  let canonicalId := "canonical-" ++ toString (st.canonicalItems.length + 1)
  let nextItem : CanonicalItem :=
    { canonicalId := canonicalId
      nameKey := nameKey
      displayName := displayName
      bySource := fun s => if s = sourceId then some item else none
      matchDetails := fun s =>
        if s = sourceId then some { method := .exact, confidence := 1 } else none
      diffReport :=
        { missingIn := []
          fieldDiffers :=
            { name := false, type := false, rarity := false, value := false, weight := false }
          recipeDiffers := false
          severity := 0
          explanation := [] } }
  { canonicalItems := st.canonicalItems ++ [nextItem]
    nameIndex := fun key =>
      if key = nameKey then st.nameIndex nameKey ++ [st.canonicalItems.length]
      else st.nameIndex key }

/-- The per-item body of `mergeAndDiffItems`: exact lookup first, then the
fuzzy fallback for non-id-keys, then creation. -/
def processItem (st : ResolveState) (sourceId : SourceId) (itemIndex : ℕ)
    (item : SourceItem) (fuzzyThreshold : ℚ) : ResolveState :=
  let displayName := getDisplayName item itemIndex
  let nameKey := getNameKey item itemIndex
  match findExact st.canonicalItems (st.nameIndex nameKey) sourceId with
  | some i => assignTo st i sourceId item .exact 1
  | none =>
    if strStartsWith nameKey "id:" then pushNew st sourceId item displayName nameKey
    else
      match findFuzzy st.canonicalItems sourceId nameKey with
      | (some bestIndex, bestScore) =>
        if bestScore ≥ fuzzyThreshold then
          assignTo st bestIndex sourceId item .fuzzy (round3 bestScore)
        else pushNew st sourceId item displayName nameKey
      | (none, _) => pushNew st sourceId item displayName nameKey

/-- One provider's pass of `mergeAndDiffItems`: process its normalized items
in order. -/
def processSource (normalizedBySource : SourceId → Option (List SourceItem))
    (fuzzyThreshold : ℚ) (st : ResolveState) (sourceId : SourceId) : ResolveState :=
  ((normalizedBySource sourceId).getD []).enum.foldl
    (fun st p => processItem st sourceId p.1 p.2 fuzzyThreshold) st

/-- The resolution loop of `mergeAndDiffItems` over the active providers, in
the given order, from the empty state. -/
def resolveAll (normalizedBySource : SourceId → Option (List SourceItem))
    (enabledSources : List SourceId) (fuzzyThreshold : ℚ) : ResolveState :=
  enabledSources.foldl (processSource normalizedBySource fuzzyThreshold)
    { canonicalItems := [], nameIndex := fun _ => [] }

/-- The display-name and diff-report pass of `mergeAndDiffItems`: pick the
first truthy (non-empty) name in active-provider order, keep the originally
assigned display name otherwise, and attach the diff report. -/
def finalizeItem (enabledSources : List SourceId) (item : CanonicalItem) : CanonicalItem :=
  let preferredName :=
    (enabledSources.filterMap (fun sourceId =>
      match (item.bySource sourceId).bind (·.name) with
      | some n => if n = "" then none else some n
      | none => none)).head?
  let item1 := { item with displayName := preferredName.getD item.displayName }
  { item1 with diffReport := buildDiffReport item1 enabledSources }

/-- The final sort comparator of `mergeAndDiffItems`: descending severity,
then `localeCompare` on the display names. -/
def canonCmp (left right : CanonicalItem) : Int :=
  if right.diffReport.severity ≠ left.diffReport.severity then
    (right.diffReport.severity : Int) - (left.diffReport.severity : Int)
  else localeCompare left.displayName right.displayName

/-- The non-strict comparison fed to the stable sort model. -/
abbrev canonLe (left right : CanonicalItem) : Prop :=
  canonCmp left right ≤ 0

/-- `mergeAndDiffItems` (`matchAndDiff.ts`): resolve, finalize, sort. -/
def mergeAndDiffItems (normalizedBySource : SourceId → Option (List SourceItem))
    (enabledSources : List SourceId) (fuzzyThreshold : ℚ) : List CanonicalItem :=
  (((resolveAll normalizedBySource enabledSources fuzzyThreshold).canonicalItems.map
    (finalizeItem enabledSources)).insertionSort canonLe)

/-- One entry of the memoized TTL cache (`server/lib/cache.ts`).  `value`
is `none` both when the field is absent and when the producer resolved with
`undefined`, exactly as in the source where the two are indistinguishable
(`existing?.value !== undefined`).  `inflight`, when present, carries the
eventual outcome of the pending producer promise. -/
structure CacheEntry (T : Type) where
  expiresAt : ℤ
  value : Option T
  inflight : Option (Except String (Option T))

/-- The private `Map` of `MemoryCache`, modelled as a function. -/
def CacheState (T : Type) : Type :=
  String → Option (CacheEntry T)

/-- The producer-running tail of `MemoryCache.getOrSet`: publish the in-flight
entry, then on success replace it with the value and a fresh expiry computed
at completion time (`doneNow`), and on failure delete the key and rethrow.
The third component records that the producer was invoked. -/
def cacheRunProducer {T : Type} (st : CacheState T) (key : String) (ttlMs now doneNow : ℤ)
    (producerResult : Except String (Option T)) :
    Except String (Option T) × CacheState T × Bool :=
  let stInflight : CacheState T := fun k =>
    if k = key then
      some { expiresAt := now + ttlMs, value := none, inflight := some producerResult }
    else st k
  match producerResult with
  | .ok v =>
    (.ok v,
      fun k =>
        if k = key then some { expiresAt := doneNow + ttlMs, value := v, inflight := none }
        else stInflight k,
      true)
  | .error e =>
    (.error e, fun k => if k = key then none else stInflight k, true)

/-- `MemoryCache.getOrSet` (`server/lib/cache.ts`) as a sequential state
transition: `now` is the `Date.now()` at entry, `doneNow` the one at producer
completion, and `producerResult` the outcome the producer would deliver if
invoked.  A live (defined, unexpired) value is returned as is; a pending
in-flight promise is joined; otherwise the producer runs. -/
def getOrSet {T : Type} (st : CacheState T) (key : String) (ttlMs now doneNow : ℤ)
    (producerResult : Except String (Option T)) :
    Except String (Option T) × CacheState T × Bool :=
  match st key with
  | some existing =>
    if existing.value.isSome ∧ existing.expiresAt > now then (.ok existing.value, st, false)
    else
      match existing.inflight with
      | some outcome => (outcome, st, false)
      | none => cacheRunProducer st key ttlMs now doneNow producerResult
  | none => cacheRunProducer st key ttlMs now doneNow producerResult

/-- One step of `buildDiffData`'s result loop: a fulfilled fetch contributes
its normalization to the map, its provider to the active list and a summary;
a rejected fetch contributes only an error summary. -/
def buildDiffStep (outcomes : SourceId → Except String SourceFetchResult) (nowIso : String)
    (acc : List SourceSummary × (SourceId → Option (List SourceItem)) × List SourceId)
    (sourceId : SourceId) :
    List SourceSummary × (SourceId → Option (List SourceItem)) × List SourceId :=
  match outcomes sourceId with
  | .ok result =>
    let normalized := normalizeSourceFetch result
    (acc.1 ++ [{ sourceId := sourceId
                 fetchedAt := result.fetchedAt
                 versionOrCommit := result.versionOrCommit
                 itemCount := normalized.length
                 error := none }],
      fun s => if s = sourceId then some normalized else acc.2.1 s,
      acc.2.2 ++ [sourceId])
  | .error msg =>
    (acc.1 ++ [{ sourceId := sourceId
                 fetchedAt := nowIso
                 versionOrCommit := "unavailable"
                 itemCount := 0
                 error := some msg }],
      acc.2.1, acc.2.2)

/-- `buildDiffData` (`server/services/pipeline.ts`): fan out to the requested
providers (the fetch outcomes, one per provider, stand for the settled
promises of `Promise.allSettled`), collect one summary per provider, keep the
successful ones as the active sources, and resolve.  The single `nowIso`
parameter stands for the `new Date().toISOString()` calls of the run. -/
def buildDiffData (requested : List SourceId)
    (outcomes : SourceId → Except String SourceFetchResult)
    (nowIso : String) (fuzzyThreshold : ℚ) : DiffDataResponse :=
  let folded := requested.foldl (buildDiffStep outcomes nowIso) ([], fun _ => none, [])
  { generatedAt := nowIso
    enabledSources := folded.2.2
    sourceSummaries := folded.1
    canonicalItems := mergeAndDiffItems folded.2.1 folded.2.2 fuzzyThreshold }

/-- One row of `metaforge_items` (`server/services/metaforgeStore.ts`).  The
`raw_json` column stores `JSON.stringify(item)`; since stringify-then-parse is
the identity on the payloads at hand, the row holds the `Json` value itself. -/
structure ItemRow where
  id : String
  name : Option String
  itemType : Option String
  rarity : Option String
  value : Option ℚ
  weight : Option ℚ
  icon : Option String
  updatedAt : Option String
  cachedAt : String
  rawJson : Json

/-- One row of `metaforge_item_links`. -/
structure LinkRow where
  itemId : String
  relation : String
  relatedItemId : Option String
  relatedName : Option String
  quantity : Option ℚ
  payloadJson : Json

/-- The singleton `metaforge_sync_state` row. -/
structure SyncRow where
  lastSyncedAt : String
  version : String
  itemCount : ℕ

/-- The snapshot store's visible state: the two tables and the sync-state
singleton. -/
structure Db where
  items : List ItemRow
  links : List LinkRow
  syncState : Option SyncRow

/-- One extracted relation of `extractLinks` before it is keyed by its item. -/
structure LinkInfo where
  relation : String
  relatedItemId : Option String
  relatedName : Option String
  quantity : Option ℚ
  payloadJson : Json

/-- The shared body of the four look-alike relation blocks of `extractLinks`
(`components`, `recycle_components`, `recycle_from`, `used_in`): read the
array property, and for every entry take ids and names from the nested
sub-object first, with the quantity falling back through
`quantity`/`amount`/`count` to 1. -/
def linkEntriesFor (item : Json) (relation fieldName nestedField : String) : List LinkInfo :=
  let entries := match item.getField fieldName with
    | some (.arr l) => l
    | _ => []
  entries.map (fun entry =>
    let object := if entry.isObjLike then some entry else none
    let nested := match object.bind (·.getField nestedField) with
      | some v => if v.isObjLike then some v else none
      | none => none
    { relation := relation
      relatedItemId := (toStringOrUndefined (nested.bind (·.getField "id"))).orElse (fun _ =>
        toStringOrUndefined (object.bind (·.getField "id")))
      relatedName := (toStringOrUndefined (nested.bind (·.getField "name"))).orElse (fun _ =>
        toStringOrUndefined (object.bind (·.getField "name")))
      quantity := some
        (((toNumberOrUndefined (object.bind (·.getField "quantity"))).orElse (fun _ =>
          (toNumberOrUndefined (object.bind (·.getField "amount"))).orElse (fun _ =>
            toNumberOrUndefined (object.bind (·.getField "count"))))).getD 1)
      payloadJson := entry })

/-- The `sold_by` block of `extractLinks`. -/
def soldByLinks (item : Json) : List LinkInfo :=
  let entries := match item.getField "sold_by" with
    | some (.arr l) => l
    | _ => []
  entries.map (fun entry =>
    let object := if entry.isObjLike then some entry else none
    { relation := "sold_by"
      relatedItemId := none
      relatedName := (toStringOrUndefined (object.bind (·.getField "trader_name"))).orElse (fun _ =>
        toStringOrUndefined (object.bind (·.getField "vendor")))
      quantity := toNumberOrUndefined (object.bind (·.getField "price"))
      payloadJson := entry })

/-- `extractLinks` (`server/services/metaforgeStore.ts`). -/
def extractLinks (item : Json) : List LinkInfo :=
  linkEntriesFor item "components" "components" "component" ++
    linkEntriesFor item "recycle_components" "recycle_components" "component" ++
    linkEntriesFor item "recycle_from" "recycle_from" "item" ++
    linkEntriesFor item "used_in" "used_in" "item" ++
    soldByLinks item

/-- The `metaforge_items` row built for one raw item inside
`persistFetchResult`; `none` models the `continue` on a missing id. -/
def itemRowOf (cachedAt : String) (item : Json) : Option ItemRow :=
  match toStringOrUndefined (item.getField "id") with
  | none => none
  | some id =>
    let statBlock := match item.getField "stat_block" with
      | some v => if v.isObjLike then some v else none
      | none => none
    some { id := id
           name := toStringOrUndefined (item.getField "name")
           itemType := toStringOrUndefined (item.getField "item_type")
           rarity := toStringOrUndefined (item.getField "rarity")
           value := toNumberOrUndefined (item.getField "value")
           weight := (toNumberOrUndefined (statBlock.bind (·.getField "weight"))).orElse (fun _ =>
             toNumberOrUndefined (item.getField "weight"))
           icon := toStringOrUndefined (item.getField "icon")
           updatedAt := toStringOrUndefined (item.getField "updated_at")
           cachedAt := cachedAt
           rawJson := item }

/-- The `metaforge_item_links` row for one extracted link of one item. -/
def linkRowOf (itemId : String) (l : LinkInfo) : LinkRow :=
  { itemId := itemId
    relation := l.relation
    relatedItemId := l.relatedItemId
    relatedName := l.relatedName
    quantity := l.quantity
    payloadJson := l.payloadJson }

/-- The primitive statements executed inside the transaction of
`persistFetchResult`, in order. -/
inductive DbOp where
  | deleteLinks : DbOp
  | deleteItems : DbOp
  | insertItem (row : ItemRow) : DbOp
  | insertLink (row : LinkRow) : DbOp
  | writeState (row : SyncRow) : DbOp

/-- Effect of one primitive statement on the store.  `insertItem` enforces
the `PRIMARY KEY` constraint of `metaforge_items` (the one declared
constraint these statements can violate); `writeState` is the declared
upsert. -/
def applyOp (db : Db) : DbOp → Except String Db
  | .deleteLinks => .ok { db with links := [] }
  | .deleteItems => .ok { db with items := [] }
  | .insertItem row =>
    if db.items.any (fun r => r.id = row.id) then
      .error "UNIQUE constraint failed: metaforge_items.id"
    else .ok { db with items := db.items ++ [row] }
  | .insertLink row => .ok { db with links := db.links ++ [row] }
  | .writeState row => .ok { db with syncState := some row }

/-- Execution of the transaction body: each statement may also fail for an
environmental reason (I/O, disk), modelled by the fault oracle on the
statement's position. -/
def runOps (fault : ℕ → Bool) : ℕ → Db → List DbOp → Except String Db
  | _, db, [] => .ok db
  | k, db, op :: rest =>
    if fault k then .error "write failed"
    else
      match applyOp db op with
      | .ok db1 => runOps fault (k + 1) db1 rest
      | .error e => .error e

/-- The insert statements the transaction body issues for a list of raw
items: for every item with a textual id, its item row followed by its link
rows. -/
def itemOps (cachedAt : String) (rawItems : List Json) : List DbOp :=
  rawItems.flatMap (fun item =>
    match itemRowOf cachedAt item with
    | none => []
    | some row =>
      DbOp.insertItem row ::
        (extractLinks item).map (fun l => DbOp.insertLink (linkRowOf row.id l)))

/-- The item rows the transaction reinserts. -/
def itemsOf (cachedAt : String) (rawItems : List Json) : List ItemRow :=
  rawItems.filterMap (itemRowOf cachedAt)

/-- The link rows the transaction reinserts. -/
def linksOf (cachedAt : String) (rawItems : List Json) : List LinkRow :=
  rawItems.flatMap (fun item =>
    match itemRowOf cachedAt item with
    | none => []
    | some row => (extractLinks item).map (fun l => linkRowOf row.id l))

/-- The statements `persistFetchResult` issues between `BEGIN` and `COMMIT`:
delete both tables, reinsert every object-like raw item that has a textual id
together with its extracted links, then upsert the sync state. -/
def opsFor (fetchResult : SourceFetchResult) : List DbOp :=
  [DbOp.deleteLinks, DbOp.deleteItems] ++
    itemOps fetchResult.fetchedAt (fetchResult.itemsRaw.filter (·.isObjLike)) ++
    [DbOp.writeState { lastSyncedAt := fetchResult.fetchedAt
                       version := fetchResult.versionOrCommit
                       itemCount := (fetchResult.itemsRaw.filter (·.isObjLike)).length }]

/-- `persistFetchResult` (`server/services/metaforgeStore.ts`): run the
statements inside one transaction; on success the new state is committed, on
any failure the transaction is rolled back (the prior state stays visible)
and the error is rethrown. -/
def persistFetchResult (fault : ℕ → Bool) (db : Db) (fetchResult : SourceFetchResult) :
    Db × Option String :=
  match runOps fault 0 db (opsFor fetchResult) with
  | .ok db1 => (db1, none)
  | .error e => (db, some e)

/-- `ensureFreshMetaForgeSnapshot` (`server/services/metaforgeStore.ts`):
when the snapshot is stale (no sync state, or older than the configured
interval - the clock comparison is abstracted into the boolean), fetch and
persist; a fetch or persist failure propagates to the caller of the read
path. -/
def ensureFreshMetaForgeSnapshot (db : Db) (stale : Bool)
    (fetchOutcome : Except String SourceFetchResult) (fault : ℕ → Bool) :
    Except String Db :=
  if stale then
    match fetchOutcome with
    | .error e => .error e
    | .ok fetchResult =>
      match persistFetchResult fault db fetchResult with
      | (db1, none) => .ok db1
      | (_, some e) => .error e
  else .ok db

theorem lexNat_eq_iff (a : List ℕ) : ∀ b, lexNat a b = .eq ↔ a = b := by
  induction a with
  | nil => intro b; cases b <;> simp [lexNat]
  | cons x xs ih =>
    intro b
    cases b with
    | nil => simp [lexNat]
    | cons y ys =>
      by_cases h1 : x < y
      · simp only [lexNat, if_pos h1]
        constructor
        · intro h; cases h
        · intro h
          injection h with h' _
          omega
      · by_cases h2 : y < x
        · simp only [lexNat, if_neg h1, if_pos h2]
          constructor
          · intro h; cases h
          · intro h
            injection h with h' _
            omega
        · have hxy : x = y := by omega
          subst hxy
          simp only [lexNat, if_neg h1, if_neg h2]
          rw [ih ys]
          constructor
          · intro h; rw [h]
          · intro h; injection h

theorem lexNat_swap (a : List ℕ) : ∀ b, lexNat b a = (lexNat a b).swap := by
  induction a with
  | nil => intro b; cases b <;> simp [lexNat, Ordering.swap]
  | cons x xs ih =>
    intro b
    cases b with
    | nil => simp [lexNat, Ordering.swap]
    | cons y ys =>
      by_cases h1 : x < y
      · have h2 : ¬y < x := by omega
        simp [lexNat, h1, h2, Ordering.swap]
      · by_cases h2 : y < x
        · simp [lexNat, h1, h2, Ordering.swap]
        · simp [lexNat, h1, h2, ih ys]

theorem lexNat_lt_trans {a b c : List ℕ} :
    lexNat a b = .lt → lexNat b c = .lt → lexNat a c = .lt := by
  induction a generalizing b c with
  | nil =>
    intro h1 h2
    cases b with
    | nil => cases c <;> simp_all [lexNat]
    | cons y ys =>
      cases c with
      | nil => simp_all [lexNat]
      | cons z zs => simp [lexNat]
  | cons x xs ih =>
    intro h1 h2
    cases b with
    | nil => simp [lexNat] at h1
    | cons y ys =>
      cases c with
      | nil => simp [lexNat] at h2
      | cons z zs =>
        simp only [lexNat] at h1 h2 ⊢
        by_cases hxy : x < y
        · by_cases hyz : y < z
          · have : x < z := by omega
            simp [this]
          · by_cases hzy : z < y
            · simp [hyz, hzy] at h2
            · have hyz' : y = z := by omega
              subst hyz'
              simp [hxy]
        · by_cases hyx : y < x
          · simp [hxy, hyx] at h1
          · have hxy' : x = y := by omega
            subst hxy'
            simp only [if_neg hxy, if_neg hyx] at h1 ⊢
            by_cases hyz : x < z
            · simp [hyz]
            · by_cases hzy : z < x
              · simp [hyz, hzy] at h2
              · have : x = z := by omega
                subst this
                simp only [if_neg hyz, if_neg hzy] at h2 ⊢
                exact ih h1 h2

theorem ordToInt_le_iff (o : Ordering) : ordToInt o ≤ 0 ↔ o ≠ .gt := by
  cases o <;> simp [ordToInt]

theorem lcOrd_swap (x y : String) : lcOrd y x = (lcOrd x y).swap := by
  unfold lcOrd
  rw [lexNat_swap (primaryKey x) (primaryKey y), lexNat_swap (caseBits x) (caseBits y)]
  rcases lexNat (primaryKey x) (primaryKey y) with _ | _ | _ <;> simp [Ordering.swap]

theorem lcOrd_trans {x y z : String} :
    lcOrd x y ≠ .gt → lcOrd y z ≠ .gt → lcOrd x z ≠ .gt := by
  unfold lcOrd
  intro h1 h2
  rcases hxy : lexNat (primaryKey x) (primaryKey y) with _ | _ | _ <;>
    rcases hyz : lexNat (primaryKey y) (primaryKey z) with _ | _ | _
  case lt.lt => rw [lexNat_lt_trans hxy hyz]; simp
  case lt.eq =>
    rw [(lexNat_eq_iff _ _).mp hyz] at hxy
    rw [hxy]; simp
  case lt.gt => rw [hyz] at h2; simp at h2
  case eq.lt =>
    rw [(lexNat_eq_iff _ _).mp hxy, hyz]
    simp
  case eq.eq =>
    rw [hxy] at h1
    rw [hyz] at h2
    rw [(lexNat_eq_iff _ _).mp hxy, (lexNat_eq_iff _ _).mp hyz,
      (lexNat_eq_iff _ _).mpr rfl]
    simp only [ne_eq] at h1 h2 ⊢
    rcases hcxy : lexNat (caseBits x) (caseBits y) with _ | _ | _ <;>
      rcases hcyz : lexNat (caseBits y) (caseBits z) with _ | _ | _
    case lt.lt => rw [lexNat_lt_trans hcxy hcyz]; simp
    case lt.eq =>
      rw [(lexNat_eq_iff _ _).mp hcyz] at hcxy
      rw [hcxy]; simp
    case lt.gt => rw [hcyz] at h2; simp at h2
    case eq.lt =>
      rw [(lexNat_eq_iff _ _).mp hcxy, hcyz]
      simp
    case eq.eq =>
      rw [(lexNat_eq_iff _ _).mp hcxy, (lexNat_eq_iff _ _).mp hcyz,
        (lexNat_eq_iff _ _).mpr rfl]
      simp
    case eq.gt => rw [hcyz] at h2; simp at h2
    case gt.lt => rw [hcxy] at h1; simp at h1
    case gt.eq => rw [hcxy] at h1; simp at h1
    case gt.gt => rw [hcxy] at h1; simp at h1
  case eq.gt => rw [hyz] at h2; simp at h2
  case gt.lt => rw [hxy] at h1; simp at h1
  case gt.eq => rw [hxy] at h1; simp at h1
  case gt.gt => rw [hxy] at h1; simp at h1

theorem localeCompare_le_total (x y : String) :
    localeCompare x y ≤ 0 ∨ localeCompare y x ≤ 0 := by
  unfold localeCompare
  rw [ordToInt_le_iff, ordToInt_le_iff, lcOrd_swap x y]
  rcases lcOrd x y with _ | _ | _ <;> simp [Ordering.swap]

theorem localeCompare_le_trans {x y z : String} :
    localeCompare x y ≤ 0 → localeCompare y z ≤ 0 → localeCompare x z ≤ 0 := by
  unfold localeCompare
  rw [ordToInt_le_iff, ordToInt_le_iff, ordToInt_le_iff]
  exact lcOrd_trans

/-- The items a given provider contributed across a list of canonical items. -/
def projSource (s : SourceId) (items : List CanonicalItem) : List SourceItem :=
  items.filterMap (fun c => c.bySource s)

theorem filterMap_set_of_eq {α β : Type} (f : α → Option β) (l : List α) (i : ℕ) (c' : α)
    (hc : ∀ c, l.get? i = some c → f c' = f c) :
    (l.set i c').filterMap f = l.filterMap f := by
  induction l generalizing i with
  | nil => simp
  | cons a as ih =>
    cases i with
    | zero =>
      have := hc a rfl
      simp [List.filterMap_cons, this]
    | succ n =>
      rw [List.set_cons_succ, List.filterMap_cons, List.filterMap_cons]
      have := ih n (fun c hcc => hc c hcc)
      cases f a <;> simp [this]

theorem filterMap_set_some {α β : Type} (f : α → Option β) (l : List α) (i : ℕ) (c c' : α)
    (b : β) (hget : l.get? i = some c) (h0 : f c = none) (h1 : f c' = some b) :
    ((l.set i c').filterMap f).Perm (b :: l.filterMap f) := by
  induction l generalizing i with
  | nil => simp at hget
  | cons a as ih =>
    cases i with
    | zero =>
      injection hget with hget
      subst hget
      simp [List.filterMap_cons, h0, h1]
    | succ n =>
      rw [List.set_cons_succ, List.filterMap_cons, List.filterMap_cons]
      have hperm := ih n hget
      cases f a with
      | none => exact hperm
      | some w =>
        exact (hperm.cons w).trans (List.Perm.swap b w _)

theorem findExact_sound {items : List CanonicalItem} {cands : List ℕ} {s : SourceId} {i : ℕ}
    (h : findExact items cands s = some i) :
    ∃ c, items.get? i = some c ∧ c.bySource s = none := by
  induction cands with
  | nil => simp [findExact] at h
  | cons j rest ih =>
    rw [findExact] at h
    rcases hg : items.get? j with _ | c
    · simp only [hg] at h
      exact ih h
    · simp only [hg] at h
      by_cases hb : (c.bySource s).isNone
      · rw [if_pos hb] at h
        injection h with h'
        subst h'
        exact ⟨c, hg, Option.isNone_iff_eq_none.mp hb⟩
      · rw [if_neg hb] at h
        exact ih h

theorem fuzzyLoop_sound (items : List CanonicalItem) (s : SourceId) (key : String) :
    ∀ (l : List (ℕ × CanonicalItem)) (bi : Option ℕ) (bs : ℚ),
      (∀ p ∈ l, items.get? p.1 = some p.2) →
      (∀ i, bi = some i → ∃ c, items.get? i = some c ∧ c.bySource s = none ∧
        strStartsWith c.nameKey "id:" = false) →
      ∀ i, (fuzzyLoop s key l bi bs).1 = some i →
        ∃ c, items.get? i = some c ∧ c.bySource s = none ∧
          strStartsWith c.nameKey "id:" = false := by
  intro l
  induction l with
  | nil =>
    intro bi bs _ hbi i h
    exact hbi i h
  | cons p rest ih =>
    intro bi bs hl hbi i h
    obtain ⟨j, c⟩ := p
    rw [fuzzyLoop] at h
    by_cases h1 : (c.bySource s).isSome
    · rw [if_pos h1] at h
      exact ih bi bs (fun q hq => hl q (List.mem_cons_of_mem _ hq)) hbi i h
    · rw [if_neg h1] at h
      by_cases h2 : strStartsWith c.nameKey "id:" = true
      · rw [if_pos h2] at h
        exact ih bi bs (fun q hq => hl q (List.mem_cons_of_mem _ hq)) hbi i h
      · rw [if_neg h2] at h
        by_cases h3 : similarity key c.nameKey > bs
        · rw [if_pos h3] at h
          refine ih _ _ (fun q hq => hl q (List.mem_cons_of_mem _ hq)) ?_ i h
          intro i' hi'
          injection hi' with hi'
          subst hi'
          refine ⟨c, hl (j, c) (List.mem_cons_self _ _), ?_, ?_⟩
          · exact Option.not_isSome_iff_eq_none.mp h1
          · exact Bool.not_eq_true _ ▸ Bool.of_not_eq_true h2
        · rw [if_neg h3] at h
          exact ih bi bs (fun q hq => hl q (List.mem_cons_of_mem _ hq)) hbi i h

theorem assignTo_proj_self {st : ResolveState} {i : ℕ} {s : SourceId} {item : SourceItem}
    {m : MatchMethod} {conf : ℚ} {c : CanonicalItem}
    (hget : st.canonicalItems.get? i = some c) (hnone : c.bySource s = none) :
    (projSource s (assignTo st i s item m conf).canonicalItems).Perm
      (item :: projSource s st.canonicalItems) := by
  unfold assignTo
  rw [hget]
  exact filterMap_set_some _ _ i c _ item hget hnone (by simp)

theorem assignTo_proj_other {st : ResolveState} {i : ℕ} {s : SourceId} {item : SourceItem}
    {m : MatchMethod} {conf : ℚ} (s' : SourceId) (hs : s' ≠ s) :
    projSource s' (assignTo st i s item m conf).canonicalItems =
      projSource s' st.canonicalItems := by
  unfold assignTo
  rcases hget : st.canonicalItems.get? i with _ | c
  · rfl
  · exact filterMap_set_of_eq _ _ i _ (fun c0 hc0 => by
      rw [hget] at hc0
      injection hc0 with hc0
      subst hc0
      simp [hs])

theorem pushNew_proj (st : ResolveState) (s : SourceId) (item : SourceItem)
    (dn nk : String) (s' : SourceId) :
    projSource s' (pushNew st s item dn nk).canonicalItems =
      projSource s' st.canonicalItems ++ (if s' = s then [item] else []) := by
  unfold pushNew projSource
  rw [List.filterMap_append]
  congr 1
  by_cases hs : s' = s <;> simp [hs]

theorem processItem_proj (st : ResolveState) (s : SourceId) (idx : ℕ) (item : SourceItem)
    (t : ℚ) :
    ((projSource s (processItem st s idx item t).canonicalItems).Perm
        (item :: projSource s st.canonicalItems)) ∧
    (∀ s', s' ≠ s → projSource s' (processItem st s idx item t).canonicalItems =
        projSource s' st.canonicalItems) := by
  unfold processItem
  rcases he : findExact st.canonicalItems (st.nameIndex (getNameKey item idx)) s with _ | i
  · simp only [he]
    by_cases hid : strStartsWith (getNameKey item idx) "id:" = true
    · rw [if_pos hid]
      constructor
      · rw [pushNew_proj]
        simp [List.perm_append_singleton]
      · intro s' hs'
        rw [pushNew_proj]
        simp [hs']
    · rw [if_neg hid]
      rcases hf : findFuzzy st.canonicalItems s (getNameKey item idx) with ⟨_ | bi, bs⟩
      · simp only [hf]
        constructor
        · rw [pushNew_proj]
          simp [List.perm_append_singleton]
        · intro s' hs'
          rw [pushNew_proj]
          simp [hs']
      · simp only [hf]
        by_cases ht : bs ≥ t
        · rw [if_pos ht]
          have hsound := fuzzyLoop_sound st.canonicalItems s (getNameKey item idx)
            st.canonicalItems.enum none 0
            (fun p hp => by
              rw [List.get?_eq_getElem?]
              exact List.mem_enum_iff_getElem?.mp hp)
            (fun i h => by cases h) bi
          have hf1 : (findFuzzy st.canonicalItems s (getNameKey item idx)).1 = some bi := by
            rw [hf]
          obtain ⟨c, hget, hnone, _⟩ := hsound hf1
          exact ⟨assignTo_proj_self hget hnone, fun s' hs' => assignTo_proj_other s' hs'⟩
        · rw [if_neg ht]
          constructor
          · rw [pushNew_proj]
            simp [List.perm_append_singleton]
          · intro s' hs'
            rw [pushNew_proj]
            simp [hs']
  · simp only [he]
    obtain ⟨c, hget, hnone⟩ := findExact_sound he
    exact ⟨assignTo_proj_self hget hnone, fun s' hs' => assignTo_proj_other s' hs'⟩

theorem foldl_processItem_proj (s : SourceId) (t : ℚ) :
    ∀ (l : List (ℕ × SourceItem)) (st : ResolveState),
      ((projSource s ((l.foldl (fun st p => processItem st s p.1 p.2 t) st).canonicalItems)).Perm
        (l.map (·.2) ++ projSource s st.canonicalItems)) ∧
      (∀ s', s' ≠ s →
        projSource s' ((l.foldl (fun st p => processItem st s p.1 p.2 t) st).canonicalItems) =
          projSource s' st.canonicalItems) := by
  intro l
  induction l with
  | nil => intro st; exact ⟨List.Perm.refl _, fun _ _ => rfl⟩
  | cons p rest ih =>
    intro st
    rw [List.foldl_cons]
    constructor
    · refine ((ih _).1.trans ?_)
      have h1 := (processItem_proj st s p.1 p.2 t).1
      refine (h1.append_left (rest.map (·.2))).trans ?_
      exact List.perm_middle.trans (List.Perm.refl _)
    · intro s' hs'
      rw [(ih _).2 s' hs', (processItem_proj st s p.1 p.2 t).2 s' hs']

theorem processSource_proj (nbs : SourceId → Option (List SourceItem)) (t : ℚ)
    (st : ResolveState) (e : SourceId) :
    ((projSource e (processSource nbs t st e).canonicalItems).Perm
      ((nbs e).getD [] ++ projSource e st.canonicalItems)) ∧
    (∀ s', s' ≠ e → projSource s' (processSource nbs t st e).canonicalItems =
      projSource s' st.canonicalItems) := by
  unfold processSource
  constructor
  · have h := (foldl_processItem_proj e t ((nbs e).getD []).enum st).1
    rwa [List.enum_map_snd] at h
  · exact (foldl_processItem_proj e t ((nbs e).getD []).enum st).2

theorem resolveAll_foldl_proj (nbs : SourceId → Option (List SourceItem)) (t : ℚ)
    (s : SourceId) :
    ∀ (enabled : List SourceId) (st : ResolveState),
      (s ∉ enabled →
        projSource s ((enabled.foldl (processSource nbs t) st).canonicalItems) =
          projSource s st.canonicalItems) ∧
      (enabled.Nodup → s ∈ enabled →
        (projSource s ((enabled.foldl (processSource nbs t) st).canonicalItems)).Perm
          ((nbs s).getD [] ++ projSource s st.canonicalItems)) := by
  intro enabled
  induction enabled with
  | nil =>
    intro st
    refine ⟨fun _ => rfl, fun _ h => absurd h (List.not_mem_nil s)⟩
  | cons e rest ih =>
    intro st
    rw [List.foldl_cons]
    constructor
    · intro hnot
      have hne : s ≠ e := fun h => hnot (h ▸ List.mem_cons_self _ _)
      have hnr : s ∉ rest := fun h => hnot (List.mem_cons_of_mem _ h)
      rw [(ih _).1 hnr, (processSource_proj nbs t st e).2 s hne]
    · intro hnd hmem
      have hnd' : rest.Nodup := (List.nodup_cons.mp hnd).2
      have henr : e ∉ rest := (List.nodup_cons.mp hnd).1
      rcases List.mem_cons.mp hmem with heq | hmr
      · subst heq
        have h1 : projSource s ((rest.foldl (processSource nbs t)
            (processSource nbs t st s)).canonicalItems) =
            projSource s (processSource nbs t st s).canonicalItems :=
          (ih _).1 henr
        rw [h1]
        exact (processSource_proj nbs t st s).1
      · have hne : s ≠ e := fun h => henr (h ▸ hmr)
        have h2 := (ih (processSource nbs t st e)).2 hnd' hmr
        rwa [(processSource_proj nbs t st e).2 s hne] at h2

theorem finalizeItem_bySource (enabled : List SourceId) (c : CanonicalItem) :
    (finalizeItem enabled c).bySource = c.bySource := rfl

theorem mergeAndDiffItems_proj (nbs : SourceId → Option (List SourceItem))
    (enabled : List SourceId) (t : ℚ) (s : SourceId) :
    ((mergeAndDiffItems nbs enabled t).filterMap (fun c => c.bySource s)).Perm
      (projSource s (resolveAll nbs enabled t).canonicalItems) := by
  unfold mergeAndDiffItems
  refine ((List.perm_insertionSort canonLe _).filterMap _).trans ?_
  rw [List.filterMap_map]
  have : ((fun c => c.bySource s) ∘ finalizeItem enabled) = (fun c => c.bySource s) := rfl
  rw [this]
  exact List.Perm.refl _

theorem mergeAndDiffItems_enabled_perm (nbs : SourceId → Option (List SourceItem))
    (enabled : List SourceId) (t : ℚ) (hnd : enabled.Nodup) (s : SourceId)
    (hs : s ∈ enabled) :
    ((mergeAndDiffItems nbs enabled t).filterMap (fun c => c.bySource s)).Perm
      ((nbs s).getD []) := by
  refine (mergeAndDiffItems_proj nbs enabled t s).trans ?_
  unfold resolveAll
  have h := (resolveAll_foldl_proj nbs t s enabled
    { canonicalItems := [], nameIndex := fun _ => [] }).2 hnd hs
  simpa [projSource] using h

theorem mergeAndDiffItems_not_enabled (nbs : SourceId → Option (List SourceItem))
    (enabled : List SourceId) (t : ℚ) (s : SourceId) (hs : s ∉ enabled) :
    (mergeAndDiffItems nbs enabled t).filterMap (fun c => c.bySource s) = [] := by
  have hperm := mergeAndDiffItems_proj nbs enabled t s
  unfold resolveAll at hperm
  rw [(resolveAll_foldl_proj nbs t s enabled
    { canonicalItems := [], nameIndex := fun _ => [] }).1 hs] at hperm
  exact hperm.eq_nil

/-- C1: for every input map, ordered provider list (taken, as throughout the
spec, as a list of distinct providers) and threshold, the resolver's output
holds, per provider, exactly the items that provider supplied: the
multiset of entries `c.bySource s` across all canonical items is exactly the
input list of provider `s` for an active provider, and empty for an inactive
one.  Since `bySource` maps each provider to at most one `SourceItem` (it is
a function into `Option`), this says every input item is assigned to exactly
one canonical item and no canonical item ever absorbs two items of one
provider - in particular two same-provider items with identical names end up
in distinct canonical items. -/
theorem c1_resolver_partition (nbs : SourceId → Option (List SourceItem))
    (enabled : List SourceId) (t : ℚ) (hnd : enabled.Nodup) :
    (∀ s ∈ enabled,
      ((mergeAndDiffItems nbs enabled t).filterMap (fun c => c.bySource s)).Perm
        ((nbs s).getD [])) ∧
    (∀ s, s ∉ enabled →
      (mergeAndDiffItems nbs enabled t).filterMap (fun c => c.bySource s) = []) :=
  ⟨fun s hs => mergeAndDiffItems_enabled_perm nbs enabled t hnd s hs,
    fun s hs => mergeAndDiffItems_not_enabled nbs enabled t s hs⟩

/-- Input for the witness of `c1_resolver_partition`: two items of the same
provider carrying the identical name. -/
def c1Item : SourceItem :=
  { sourceId := .ardb, sourceItemId := none, name := some "Apple", type := none,
    rarity := none, value := none, weight := none, inputs := none, outputs := none }

/-- The witness input map: provider `ardb` supplies the same-named item twice. -/
def c1Nbs : SourceId → Option (List SourceItem) := fun s =>
  if s = SourceId.ardb then some [c1Item, c1Item] else none

theorem c1_resolver_partition_witness :
    List.Nodup [SourceId.ardb] ∧
    ((mergeAndDiffItems c1Nbs [SourceId.ardb] (93 / 100)).filterMap
        (fun c => c.bySource SourceId.ardb)).Perm ((c1Nbs SourceId.ardb).getD []) :=
  ⟨by decide,
    (c1_resolver_partition c1Nbs [SourceId.ardb] (93 / 100) (by decide)).1
      SourceId.ardb (by decide)⟩

/-- C6: the severity of every diff report is the clamped weighted sum
`min(100, 18 x missing + 10 name + 8 type + 8 rarity + 12 value + 12 weight +
20 recipe)` of its own flags, and (being a natural number clamped at 100) is
an integer between 0 and 100 - so even an entity missing from 6 providers
with every field differing reports 100, never more. -/
theorem c6_severity_formula (item : CanonicalItem) (enabled : List SourceId) :
    ((buildDiffReport item enabled).severity =
      min 100 ((buildDiffReport item enabled).missingIn.length * 18 +
        (if (buildDiffReport item enabled).fieldDiffers.name then 10 else 0) +
        (if (buildDiffReport item enabled).fieldDiffers.type then 8 else 0) +
        (if (buildDiffReport item enabled).fieldDiffers.rarity then 8 else 0) +
        (if (buildDiffReport item enabled).fieldDiffers.value then 12 else 0) +
        (if (buildDiffReport item enabled).fieldDiffers.weight then 12 else 0) +
        (if (buildDiffReport item enabled).recipeDiffers then 20 else 0))) ∧
    (buildDiffReport item enabled).severity ≤ 100 :=
  ⟨rfl, Nat.min_le_left 100 _⟩

theorem filterMap_id_length_eq_iff {β : Type} (l : List (Option β)) :
    (l.filterMap id).length = l.length ↔ ∀ v ∈ l, v.isSome := by
  induction l with
  | nil => simp
  | cons v rest ih =>
    cases v with
    | none =>
      simp only [List.filterMap_cons, id]
      constructor
      · intro h
        have hle := List.length_filterMap_le id rest
        simp at h
        omega
      · intro h
        have := h none (List.mem_cons_self _ _)
        simp at this
    | some b =>
      simp only [List.filterMap_cons, id]
      simp only [List.length_cons]
      constructor
      · intro h
        intro v hv
        rcases List.mem_cons.mp hv with rfl | hv'
        · rfl
        · exact (ih.mp (by omega)) v hv'
      · intro h
        have := ih.mpr (fun v hv => h v (List.mem_cons_of_mem _ hv))
        omega

theorem one_lt_dedup_length_iff {β : Type} [DecidableEq β] (l : List β) :
    1 < l.dedup.length ↔ ∃ a ∈ l, ∃ b ∈ l, a ≠ b := by
  constructor
  · intro h
    rcases hd : l.dedup with _ | ⟨a, _ | ⟨b, rest⟩⟩
    · rw [hd] at h; simp at h
    · rw [hd] at h; simp at h
    · have hnd := l.nodup_dedup
      rw [hd] at hnd
      have hab : a ≠ b := by
        have := (List.nodup_cons.mp hnd).1
        intro hcontra
        exact this (hcontra ▸ List.mem_cons_self _ _)
      have ha : a ∈ l := List.mem_dedup.mp (hd ▸ List.mem_cons_self _ _)
      have hb : b ∈ l := List.mem_dedup.mp (hd ▸ List.mem_cons_of_mem _ (List.mem_cons_self _ _))
      exact ⟨a, ha, b, hb, hab⟩
  · rintro ⟨a, ha, b, hb, hab⟩
    by_contra hle
    push_neg at hle
    rcases hd : l.dedup with _ | ⟨x, xs⟩
    · have : a ∈ l.dedup := List.mem_dedup.mpr ha
      rw [hd] at this
      cases this
    · have hxs : xs = [] := by
        rw [hd] at hle
        simpa using hle
      subst hxs
      have ha' : a ∈ l.dedup := List.mem_dedup.mpr ha
      have hb' : b ∈ l.dedup := List.mem_dedup.mpr hb
      rw [hd] at ha' hb'
      simp at ha' hb'
      exact hab (ha'.trans hb'.symm)

theorem differsByValues_iff {α β : Type} [DecidableEq β] (values : List (Option α))
    (normalizer : Option α → Option β) :
    differsByValues values normalizer = true ↔
      ((∃ a ∈ (values.map normalizer).filterMap id,
          ∃ b ∈ (values.map normalizer).filterMap id, a ≠ b) ∨
        ((∃ v ∈ values.map normalizer, v.isSome) ∧
          (∃ v ∈ values.map normalizer, v = none))) := by
  unfold differsByValues
  by_cases hempty : ((values.map normalizer).filterMap id).isEmpty
  · rw [if_pos hempty]
    have hall : ∀ v ∈ values.map normalizer, v = none := by
      intro v hv
      have := List.filterMap_eq_nil_iff.mp (List.isEmpty_iff.mp hempty) v hv
      simpa using this
    constructor
    · intro h; cases h
    · rintro (⟨a, ha, _⟩ | ⟨⟨v, hv, hsome⟩, _⟩)
      · rw [List.isEmpty_iff.mp hempty] at ha
        cases ha
      · rw [hall v hv] at hsome
        cases hsome
  · rw [if_neg hempty]
    have hne : ((values.map normalizer).filterMap id) ≠ [] := by
      intro h
      rw [h] at hempty
      exact hempty rfl
    obtain ⟨b0, hb0⟩ := List.exists_mem_of_ne_nil _ hne
    obtain ⟨v0, hv0, hv0b⟩ := List.mem_filterMap.mp hb0
    have hsome0 : ∃ v ∈ values.map normalizer, v.isSome := by
      refine ⟨v0, hv0, ?_⟩
      simp only [id] at hv0b
      rw [hv0b]
      rfl
    by_cases hdup : 1 < ((values.map normalizer).filterMap id).dedup.length
    · rw [if_pos hdup]
      simp only [true_iff]
      left
      exact (one_lt_dedup_length_iff _).mp hdup
    · rw [if_neg hdup]
      constructor
      · intro h
        right
        refine ⟨hsome0, ?_⟩
        have hlen : ((values.map normalizer).filterMap id).length ≠
            (values.map normalizer).length := by simpa using h
        by_contra hnone
        push_neg at hnone
        refine hlen ((filterMap_id_length_eq_iff _).mpr ?_)
        intro v hv
        cases hvv : v with
        | none => exact absurd hvv (hnone v hv)
        | some b => rfl
      · rintro (⟨a, ha, b, hb, hab⟩ | ⟨_, ⟨v, hv, hvnone⟩⟩)
        · exact absurd ((one_lt_dedup_length_iff _).mpr ⟨a, ha, b, hb, hab⟩) hdup
        · simp only [decide_eq_true_eq]
          intro hlen
          have := (filterMap_id_length_eq_iff _).mp hlen v hv
          rw [hvnone] at this
          cases this

/-- The claim's reading of one scalar-field rule of the diff engine: among the
providers that have the item, either two of them carry distinct normalized
values, or one carries a value and another lacks one. -/
def specScalarDiffers {β : Type} (item : CanonicalItem) (enabled : List SourceId)
    (get : SourceItem → Option β) (norm : Option β → Option β) : Prop :=
  let present := enabled.filter (fun s => (item.bySource s).isSome)
  (∃ s1 ∈ present, ∃ s2 ∈ present, ∃ a b,
    norm ((item.bySource s1).bind get) = some a ∧
    norm ((item.bySource s2).bind get) = some b ∧ a ≠ b) ∨
  ((∃ s ∈ present, (norm ((item.bySource s).bind get)).isSome) ∧
    (∃ s ∈ present, norm ((item.bySource s).bind get) = none))

theorem specScalarDiffers_iff {β : Type} [DecidableEq β] (item : CanonicalItem)
    (enabled : List SourceId) (get : SourceItem → Option β) (norm : Option β → Option β) :
    (differsByValues ((enabled.filter (fun s => (item.bySource s).isSome)).map
        (fun s => (item.bySource s).bind get)) norm = true) ↔
      specScalarDiffers item enabled get norm := by
  rw [differsByValues_iff]
  unfold specScalarDiffers
  simp only [List.mem_filterMap, List.mem_map, List.map_map, id_eq, Function.comp]
  constructor
  · rintro (⟨a, ⟨v, ⟨s1, hs1, hv⟩, hva⟩, b, ⟨w, ⟨s2, hs2, hw⟩, hwb⟩, hab⟩ |
      ⟨⟨v, ⟨s1, hs1, hv⟩, hsome⟩, ⟨w, ⟨s2, hs2, hw⟩, hwnone⟩⟩)
    · exact Or.inl ⟨s1, hs1, s2, hs2, a, b, by rw [hv, hva], by rw [hw, hwb], hab⟩
    · exact Or.inr ⟨⟨s1, hs1, by rw [hv]; exact hsome⟩, ⟨s2, hs2, by rw [hw]; exact hwnone⟩⟩
  · rintro (⟨s1, hs1, s2, hs2, a, b, ha, hb, hab⟩ | ⟨⟨s1, hs1, hsome⟩, ⟨s2, hs2, hnone⟩⟩)
    · exact Or.inl ⟨a, ⟨_, ⟨s1, hs1, rfl⟩, ha⟩, b, ⟨_, ⟨s2, hs2, rfl⟩, hb⟩, hab⟩
    · exact Or.inr ⟨⟨_, ⟨s1, hs1, rfl⟩, hsome⟩, ⟨_, ⟨s2, hs2, rfl⟩, hnone⟩⟩

theorem specScalarDiffers_needs_value {β : Type} (item : CanonicalItem)
    (enabled : List SourceId) (get : SourceItem → Option β) (norm : Option β → Option β)
    (hall : ∀ s ∈ enabled.filter (fun s => (item.bySource s).isSome),
      norm ((item.bySource s).bind get) = none) :
    ¬ specScalarDiffers item enabled get norm := by
  rintro (⟨s1, hs1, s2, hs2, a, b, ha, _, _⟩ | ⟨⟨s, hs, hsome⟩, _⟩)
  · rw [hall s1 hs1] at ha
    cases ha
  · rw [hall s hs] at hsome
    cases hsome

/-- C5: each scalar field of the diff report differs exactly when, among the
providers that have the item, two normalized values disagree or presence of
the (normalized) value is inconsistent - `name`, `type` and `rarity` under the
trim-and-lowercase normalizer, `value` and `weight` under rounding to 4
decimal places; and a field none of the present providers has a value for is
never reported as differing. -/
theorem c5_scalar_fields (item : CanonicalItem) (enabled : List SourceId) :
    ((buildDiffReport item enabled).fieldDiffers.name = true ↔
        specScalarDiffers item enabled SourceItem.name normalizeText) ∧
    ((buildDiffReport item enabled).fieldDiffers.type = true ↔
        specScalarDiffers item enabled SourceItem.type normalizeText) ∧
    ((buildDiffReport item enabled).fieldDiffers.rarity = true ↔
        specScalarDiffers item enabled SourceItem.rarity normalizeText) ∧
    ((buildDiffReport item enabled).fieldDiffers.value = true ↔
        specScalarDiffers item enabled SourceItem.value normalizeNumber) ∧
    ((buildDiffReport item enabled).fieldDiffers.weight = true ↔
        specScalarDiffers item enabled SourceItem.weight normalizeNumber) ∧
    (∀ {β : Type} (get : SourceItem → Option β) (norm : Option β → Option β),
      (∀ s ∈ enabled.filter (fun s => (item.bySource s).isSome),
        norm ((item.bySource s).bind get) = none) →
      ¬ specScalarDiffers item enabled get norm) :=
  ⟨specScalarDiffers_iff item enabled SourceItem.name normalizeText,
    specScalarDiffers_iff item enabled SourceItem.type normalizeText,
    specScalarDiffers_iff item enabled SourceItem.rarity normalizeText,
    specScalarDiffers_iff item enabled SourceItem.value normalizeNumber,
    specScalarDiffers_iff item enabled SourceItem.weight normalizeNumber,
    fun get norm hall => specScalarDiffers_needs_value item enabled get norm hall⟩

theorem cacheRunProducer_invoked {T : Type} (st : CacheState T) (key : String)
    (ttlMs now doneNow : ℤ) (pr : Except String (Option T)) :
    (cacheRunProducer st key ttlMs now doneNow pr).2.2 = true := by
  unfold cacheRunProducer
  cases pr <;> rfl

theorem getOrSet_invokes_of_dead {T : Type} (st : CacheState T) (key : String)
    (ttlMs now doneNow : ℤ) (pr : Except String (Option T))
    (hmiss : ∀ entry, st key = some entry →
      ¬(entry.value.isSome ∧ entry.expiresAt > now) ∧ entry.inflight = none) :
    getOrSet st key ttlMs now doneNow pr = cacheRunProducer st key ttlMs now doneNow pr ∧
    (getOrSet st key ttlMs now doneNow pr).2.2 = true := by
  have hmain : getOrSet st key ttlMs now doneNow pr =
      cacheRunProducer st key ttlMs now doneNow pr := by
    unfold getOrSet
    rcases hk : st key with _ | entry
    · rfl
    · obtain ⟨hnl, hni⟩ := hmiss entry hk
      simp only [if_neg hnl, hni]
  exact ⟨hmain, by rw [hmain]; exact cacheRunProducer_invoked _ _ _ _ _ _⟩

/-- C3: when the key holds no live value and no in-flight producer, a failing
producer makes `getOrSet` propagate the failure, leave no entry at all for the
key, and therefore the next `getOrSet` for that key invokes the producer
again, whatever its outcome or timing. -/
theorem c3_cache_failure_eviction {T : Type} (st : CacheState T) (key : String)
    (ttlMs now doneNow : ℤ) (e : String)
    (hmiss : ∀ entry, st key = some entry →
      ¬(entry.value.isSome ∧ entry.expiresAt > now) ∧ entry.inflight = none) :
    (getOrSet st key ttlMs now doneNow (.error e)).1 = .error e ∧
    (getOrSet st key ttlMs now doneNow (.error e)).2.1 key = none ∧
    (getOrSet st key ttlMs now doneNow (.error e)).2.2 = true ∧
    (∀ (ttl' now' dn' : ℤ) (pr : Except String (Option T)),
      (getOrSet ((getOrSet st key ttlMs now doneNow (.error e)).2.1)
        key ttl' now' dn' pr).2.2 = true) := by
  obtain ⟨hmain, hinv⟩ := getOrSet_invokes_of_dead st key ttlMs now doneNow (.error e) hmiss
  rw [hmain]
  refine ⟨rfl, by simp [cacheRunProducer], cacheRunProducer_invoked _ _ _ _ _ _, ?_⟩
  intro ttl' now' dn' pr
  refine (getOrSet_invokes_of_dead _ key ttl' now' dn' pr ?_).2
  intro entry h
  have : (cacheRunProducer st key ttlMs now doneNow (Except.error e)).2.1 key = none := by
    simp [cacheRunProducer]
  rw [this] at h
  cases h

/-- C10: a producer resolving with `undefined` is recorded with an undefined
value, so it is never served as a cached hit: any later `getOrSet` for that
key (no producer being in flight) runs the producer again even inside the TTL
window. -/
theorem c10_undefined_not_cached {T : Type} (st : CacheState T) (key : String)
    (ttlMs now doneNow : ℤ)
    (hmiss : ∀ entry, st key = some entry →
      ¬(entry.value.isSome ∧ entry.expiresAt > now) ∧ entry.inflight = none) :
    (getOrSet st key ttlMs now doneNow (.ok none)).1 = .ok none ∧
    (getOrSet st key ttlMs now doneNow (.ok none)).2.1 key =
      some { expiresAt := doneNow + ttlMs, value := none, inflight := none } ∧
    (∀ (ttl' now' dn' : ℤ) (pr : Except String (Option T)),
      (getOrSet ((getOrSet st key ttlMs now doneNow (.ok none)).2.1)
        key ttl' now' dn' pr).2.2 = true) := by
  obtain ⟨hmain, _⟩ := getOrSet_invokes_of_dead st key ttlMs now doneNow (.ok none) hmiss
  rw [hmain]
  have hstate : (cacheRunProducer st key ttlMs now doneNow
      (Except.ok (none : Option T))).2.1 key =
      some { expiresAt := doneNow + ttlMs, value := none, inflight := none } := by
    simp [cacheRunProducer]
  refine ⟨rfl, hstate, ?_⟩
  intro ttl' now' dn' pr
  refine (getOrSet_invokes_of_dead _ key ttl' now' dn' pr ?_).2
  intro entry h
  rw [hstate] at h
  injection h with h
  subst h
  simp

theorem c3_cache_failure_eviction_witness :
    (getOrSet (fun _ => none : CacheState ℕ) "k" 5 0 1 (.error "boom")).1 = .error "boom" ∧
    (getOrSet (fun _ => none : CacheState ℕ) "k" 5 0 1 (.error "boom")).2.1 "k" = none ∧
    (getOrSet ((getOrSet (fun _ => none : CacheState ℕ) "k" 5 0 1 (.error "boom")).2.1)
      "k" 5 2 3 (.ok (some 7))).2.2 = true := by
  have h := c3_cache_failure_eviction (fun _ => none : CacheState ℕ) "k" 5 0 1 "boom"
    (fun entry hc => by cases hc)
  exact ⟨h.1, h.2.1, h.2.2.2 5 2 3 (.ok (some 7))⟩

theorem c10_undefined_not_cached_witness :
    (getOrSet (fun _ => none : CacheState ℕ) "k" 100 0 1 (.ok none)).1 = .ok none ∧
    (getOrSet ((getOrSet (fun _ => none : CacheState ℕ) "k" 100 0 1 (.ok none)).2.1)
      "k" 100 2 3 (.ok (some 7))).2.2 = true := by
  have h := c10_undefined_not_cached (fun _ => none : CacheState ℕ) "k" 100 0 1
    (fun entry hc => by cases hc)
  exact ⟨h.1, h.2.2 100 2 3 (.ok (some 7))⟩

/-- The summary `buildDiffData` appends for one provider, as a function of its
fetch outcome. -/
def summaryFor (outcomes : SourceId → Except String SourceFetchResult) (nowIso : String)
    (s : SourceId) : SourceSummary :=
  match outcomes s with
  | .ok result =>
    { sourceId := s, fetchedAt := result.fetchedAt,
      versionOrCommit := result.versionOrCommit,
      itemCount := (normalizeSourceFetch result).length, error := none }
  | .error msg =>
    { sourceId := s, fetchedAt := nowIso, versionOrCommit := "unavailable",
      itemCount := 0, error := some msg }

/-- Whether a provider's fetch settled fulfilled. -/
def fetchOk (outcomes : SourceId → Except String SourceFetchResult) (s : SourceId) : Bool :=
  match outcomes s with
  | .ok _ => true
  | .error _ => false

theorem summaryFor_sourceId (outcomes : SourceId → Except String SourceFetchResult)
    (nowIso : String) (s : SourceId) : (summaryFor outcomes nowIso s).sourceId = s := by
  unfold summaryFor
  cases outcomes s <;> rfl

theorem buildDiffStep_foldl (outcomes : SourceId → Except String SourceFetchResult)
    (nowIso : String) :
    ∀ (requested : List SourceId)
      (acc : List SourceSummary × (SourceId → Option (List SourceItem)) × List SourceId),
      ((requested.foldl (buildDiffStep outcomes nowIso) acc).1 =
        acc.1 ++ requested.map (summaryFor outcomes nowIso)) ∧
      ((requested.foldl (buildDiffStep outcomes nowIso) acc).2.2 =
        acc.2.2 ++ requested.filter (fetchOk outcomes)) := by
  intro requested
  induction requested with
  | nil => intro acc; simp
  | cons s rest ih =>
    intro acc
    rw [List.foldl_cons, List.map_cons, List.filter_cons]
    rcases ho : outcomes s with msg | result
    · have hstep : buildDiffStep outcomes nowIso acc s =
          (acc.1 ++ [summaryFor outcomes nowIso s], acc.2.1, acc.2.2) := by
        unfold buildDiffStep summaryFor
        rw [ho]
      have hok : fetchOk outcomes s = false := by
        unfold fetchOk
        rw [ho]
      rw [hstep, hok]
      obtain ⟨h1, h2⟩ := ih (acc.1 ++ [summaryFor outcomes nowIso s], acc.2.1, acc.2.2)
      constructor
      · rw [h1]
        simp
      · rw [h2]
        simp
    · have hstep : buildDiffStep outcomes nowIso acc s =
          (acc.1 ++ [summaryFor outcomes nowIso s],
            fun s' => if s' = s then some (normalizeSourceFetch result) else acc.2.1 s',
            acc.2.2 ++ [s]) := by
        unfold buildDiffStep summaryFor
        rw [ho]
      have hok : fetchOk outcomes s = true := by
        unfold fetchOk
        rw [ho]
      rw [hstep, hok]
      obtain ⟨h1, h2⟩ := ih (acc.1 ++ [summaryFor outcomes nowIso s],
        fun s' => if s' = s then some (normalizeSourceFetch result) else acc.2.1 s',
        acc.2.2 ++ [s])
      constructor
      · rw [h1]
        simp
      · rw [h2]
        simp

theorem filter_eq_singleton_of_nodup {α : Type} [DecidableEq α] :
    ∀ {l : List α}, l.Nodup → ∀ {a : α}, a ∈ l → l.filter (fun x => x = a) = [a] := by
  intro l
  induction l with
  | nil => intro _ a ha; cases ha
  | cons x xs ih =>
    intro hnd a ha
    rw [List.filter_cons]
    rcases List.mem_cons.mp ha with rfl | hmem
    · rw [if_pos (by simp)]
      have hnot : a ∉ xs := (List.nodup_cons.mp hnd).1
      have : xs.filter (fun x => x = a) = [] := by
        rw [List.filter_eq_nil_iff]
        intro b hb
        simp only [decide_eq_true_eq]
        intro hba
        exact hnot (hba ▸ hb)
      rw [this]
    · have hne : x ≠ a := by
        intro h
        exact (List.nodup_cons.mp hnd).1 (h ▸ hmem)
      rw [if_neg (by simpa using hne)]
      exact ih (List.nodup_cons.mp hnd).2 hmem

/-- C4: in a run where some requested providers' fetches succeed and others
fail, every requested provider gets exactly one summary (the summaries list
them in request order, and a failed provider's only summary carries
`versionOrCommit = "unavailable"`, `itemCount = 0` and the error message);
`enabledSources` is exactly the requested providers whose fetch succeeded;
and no canonical item carries a `bySource` entry for a failed provider. -/
theorem c4_partial_failure (requested : List SourceId)
    (outcomes : SourceId → Except String SourceFetchResult) (nowIso : String) (t : ℚ)
    (hnd : requested.Nodup)
    (_hsucc : ∃ s ∈ requested, ∃ r, outcomes s = .ok r)
    (_hfail : ∃ s ∈ requested, ∃ msg, outcomes s = .error msg) :
    ((buildDiffData requested outcomes nowIso t).sourceSummaries.map (fun x => x.sourceId) =
      requested) ∧
    (∀ s msg, s ∈ requested → outcomes s = .error msg →
      (buildDiffData requested outcomes nowIso t).sourceSummaries.filter
          (fun sum => sum.sourceId = s) =
        [{ sourceId := s, fetchedAt := nowIso, versionOrCommit := "unavailable",
           itemCount := 0, error := some msg }]) ∧
    ((buildDiffData requested outcomes nowIso t).enabledSources =
      requested.filter (fetchOk outcomes)) ∧
    (∀ s msg, outcomes s = .error msg →
      ∀ c ∈ (buildDiffData requested outcomes nowIso t).canonicalItems,
        c.bySource s = none) := by
  obtain ⟨hsum, hact⟩ := buildDiffStep_foldl outcomes nowIso requested
    ([], fun _ => none, [])
  have hsummaries : (buildDiffData requested outcomes nowIso t).sourceSummaries =
      requested.map (summaryFor outcomes nowIso) := by
    show (requested.foldl (buildDiffStep outcomes nowIso) ([], fun _ => none, [])).1 =
      requested.map (summaryFor outcomes nowIso)
    rw [hsum]
    rfl
  have henabled : (buildDiffData requested outcomes nowIso t).enabledSources =
      requested.filter (fetchOk outcomes) := by
    show (requested.foldl (buildDiffStep outcomes nowIso) ([], fun _ => none, [])).2.2 =
      requested.filter (fetchOk outcomes)
    rw [hact]
    rfl
  refine ⟨?_, ?_, henabled, ?_⟩
  · rw [hsummaries, List.map_map]
    have : ((fun x => SourceSummary.sourceId x) ∘ summaryFor outcomes nowIso) = id := by
      funext s
      exact summaryFor_sourceId outcomes nowIso s
    rw [this, List.map_id]
  · intro s msg hs hmsg
    rw [hsummaries, List.filter_map]
    have hcongr : (requested.filter ((fun sum => decide (sum.sourceId = s)) ∘
        summaryFor outcomes nowIso)) = requested.filter (fun x => x = s) := by
      refine List.filter_congr ?_
      intro a _
      simp only [Function.comp, summaryFor_sourceId]
    rw [hcongr, filter_eq_singleton_of_nodup hnd hs, List.map_singleton]
    unfold summaryFor
    rw [hmsg]
  · intro s msg hmsg c hc
    have hnotok : fetchOk outcomes s = false := by
      unfold fetchOk
      rw [hmsg]
    have hnotmem : s ∉ requested.filter (fetchOk outcomes) := by
      intro hmem
      rw [(List.mem_filter.mp hmem).2] at hnotok
      cases hnotok
    have hcanon : (buildDiffData requested outcomes nowIso t).canonicalItems =
        mergeAndDiffItems (requested.foldl (buildDiffStep outcomes nowIso)
          ([], fun _ => none, [])).2.1 (requested.foldl (buildDiffStep outcomes nowIso)
          ([], fun _ => none, [])).2.2 t := rfl
    have hnil := mergeAndDiffItems_not_enabled
      (requested.foldl (buildDiffStep outcomes nowIso) ([], fun _ => none, [])).2.1
      (requested.foldl (buildDiffStep outcomes nowIso) ([], fun _ => none, [])).2.2
      t s (by rw [hact]; simpa using hnotmem)
    rw [hcanon] at hc
    exact List.filterMap_eq_nil_iff.mp hnil c hc

/-- Fetch outcomes for the witness of `c4_partial_failure`: two of three
requested providers succeed, the third rejects. -/
def c4Outcomes : SourceId → Except String SourceFetchResult := fun s =>
  match s with
  | .ardb => .ok
      { sourceId := .ardb, fetchedAt := "t1", versionOrCommit := "v1",
        itemsRaw := [Json.obj [("id", Json.str "a1"), ("name", Json.str "Apple")]] }
  | .metaforge => .ok
      { sourceId := .metaforge, fetchedAt := "t2", versionOrCommit := "v2",
        itemsRaw := [] }
  | _ => .error "boom"

theorem c4_partial_failure_witness :
    ((buildDiffData [SourceId.ardb, SourceId.metaforge, SourceId.raidtheory] c4Outcomes
        "now" (93 / 100)).sourceSummaries.length = 3) ∧
    ((buildDiffData [SourceId.ardb, SourceId.metaforge, SourceId.raidtheory] c4Outcomes
        "now" (93 / 100)).enabledSources = [SourceId.ardb, SourceId.metaforge]) ∧
    ((buildDiffData [SourceId.ardb, SourceId.metaforge, SourceId.raidtheory] c4Outcomes
        "now" (93 / 100)).sourceSummaries.filter
        (fun sum => sum.sourceId = SourceId.raidtheory) =
      [{ sourceId := SourceId.raidtheory, fetchedAt := "now",
         versionOrCommit := "unavailable", itemCount := 0, error := some "boom" }]) := by
  have h := c4_partial_failure [SourceId.ardb, SourceId.metaforge, SourceId.raidtheory]
    c4Outcomes "now" (93 / 100) (by decide)
    ⟨SourceId.ardb, by decide, _, by rfl⟩
    ⟨SourceId.raidtheory, by decide, "boom", by rfl⟩
  refine ⟨?_, ?_, ?_⟩
  · have := congrArg List.length h.1
    simpa using this
  · exact h.2.2.1.trans (by decide)
  · exact h.2.1 SourceId.raidtheory "boom" (by decide) (by rfl)

instance : IsTotal RecipePart recipePartLeLower :=
  ⟨fun _ _ => localeCompare_le_total _ _⟩

instance : IsTrans RecipePart recipePartLeLower :=
  ⟨fun _ _ _ => localeCompare_le_trans⟩

instance : IsTotal RecipePart recipePartLeRaw :=
  ⟨fun _ _ => localeCompare_le_total _ _⟩

instance : IsTrans RecipePart recipePartLeRaw :=
  ⟨fun _ _ _ => localeCompare_le_trans⟩

theorem recipePartsOfMap_itemId_mem {fields : List (String × Json)} {p : RecipePart}
    (hp : p ∈ recipePartsOfMap fields) : ∃ k ∈ fields.map Prod.fst, p.itemId = some k := by
  unfold recipePartsOfMap at hp
  obtain ⟨⟨k, v⟩, hkv, hpk⟩ := List.mem_filterMap.mp hp
  rcases hn : toNumberOrUndefined (some v) with _ | q
  · simp only [hn] at hpk
    cases hpk
  · simp only [hn] at hpk
    by_cases hq : q = 0 ∨ q ≤ 0
    · rw [if_pos hq] at hpk
      cases hpk
    · rw [if_neg hq] at hpk
      injection hpk with hpk
      subst hpk
      exact ⟨k, List.mem_map_of_mem Prod.fst hkv, rfl⟩

theorem recipePartsOfMap_nodup (fields : List (String × Json))
    (hnd : (fields.map Prod.fst).Nodup) :
    ((recipePartsOfMap fields).map (fun p => p.itemId)).Nodup := by
  induction fields with
  | nil => simp [recipePartsOfMap]
  | cons kv rest ih =>
    obtain ⟨k, v⟩ := kv
    rw [List.map_cons] at hnd
    obtain ⟨hknot, hndr⟩ := List.nodup_cons.mp hnd
    unfold recipePartsOfMap
    rw [List.filterMap_cons]
    rcases hn : toNumberOrUndefined (some v) with _ | q
    · simp only [hn]
      exact ih hndr
    · simp only [hn]
      by_cases hq : q = 0 ∨ q ≤ 0
      · rw [if_pos hq]
        exact ih hndr
      · rw [if_neg hq]
        rw [List.map_cons, List.nodup_cons]
        refine ⟨?_, ih hndr⟩
        intro hmem
        obtain ⟨p, hp, hpid⟩ := List.mem_map.mp hmem
        obtain ⟨k', hk', hpk'⟩ := recipePartsOfMap_itemId_mem hp
        rw [hpk'] at hpid
        injection hpid with hpid
        exact hknot (hpid ▸ hk')

/-- C8 counterexample input: an array-shape recipe whose two entries share the
id `"a"`. -/
def c8DupJson : Json := Json.arr
  [Json.obj [("id", Json.str "a"), ("amount", Json.num 1)],
   Json.obj [("id", Json.str "a"), ("amount", Json.num 2)]]

/-- C8 counterexample: the array branch of `normalizeRecipeParts` performs no
deduplication - two entries with the identical key `"a"` both survive into
the result, refuting "the same list never contains two parts with the same
key". -/
theorem c8_counterexample :
    normalizeRecipeParts (some c8DupJson) =
      some [{ itemId := some "a", name := none, amount := 1 },
            { itemId := some "a", name := none, amount := 2 }] ∧
    ¬ (((normalizeRecipeParts (some c8DupJson)).getD []).map
        (fun p => lowerStr (p.itemId.getD (p.name.getD "")))).Nodup :=
  ⟨by decide, by decide⟩

/-- C8 amended: `normalizeRecipeParts` sorts but does not deduplicate.  The
array shape is sorted ascending by the lowercased `(itemId ?? name)` key and
the map shape ascending by its raw key (whose locale comparison lowercases in
its primary pass); map-shape keys are pairwise distinct provided the
JavaScript object's keys are (as they always are), while the array shape
keeps duplicate keys (see the counterexample). -/
theorem c8_recipe_parts_sorted (v : Option Json) :
    (∀ entries l, v = some (Json.arr entries) → normalizeRecipeParts v = some l →
      l.Pairwise recipePartLeLower) ∧
    (∀ fields l, v = some (Json.obj fields) → normalizeRecipeParts v = some l →
      l.Pairwise recipePartLeRaw ∧
        ((fields.map Prod.fst).Nodup → (l.map (fun p => p.itemId)).Nodup)) := by
  constructor
  · rintro entries l rfl hl
    have hl' : (if ((recipePartsOfArray entries).insertionSort recipePartLeLower).length > 0
        then some ((recipePartsOfArray entries).insertionSort recipePartLeLower)
        else none) = some l := hl
    by_cases hlen :
        ((recipePartsOfArray entries).insertionSort recipePartLeLower).length > 0
    · rw [if_pos hlen] at hl'
      injection hl' with hl'
      subst hl'
      exact List.sorted_insertionSort recipePartLeLower _
    · rw [if_neg hlen] at hl'
      cases hl'
  · rintro fields l rfl hl
    have hl' : (if ((recipePartsOfMap fields).insertionSort recipePartLeRaw).length > 0
        then some ((recipePartsOfMap fields).insertionSort recipePartLeRaw)
        else none) = some l := hl
    by_cases hlen :
        ((recipePartsOfMap fields).insertionSort recipePartLeRaw).length > 0
    · rw [if_pos hlen] at hl'
      injection hl' with hl'
      subst hl'
      refine ⟨List.sorted_insertionSort recipePartLeRaw _, ?_⟩
      intro hnd
      have hperm := (List.perm_insertionSort recipePartLeRaw
        (recipePartsOfMap fields)).map (fun p => p.itemId)
      exact hperm.nodup_iff.mpr (recipePartsOfMap_nodup fields hnd)
    · rw [if_neg hlen] at hl'
      cases hl'

/-- Inputs for the witness of `c8_recipe_parts_sorted`. -/
def c8ArrJson : List Json :=
  [Json.obj [("id", Json.str "b"), ("amount", Json.num 1)],
   Json.obj [("id", Json.str "a"), ("amount", Json.num 2)]]

theorem c8_recipe_parts_sorted_witness :
    (∀ l, normalizeRecipeParts (some (Json.arr c8ArrJson)) = some l →
      l.Pairwise recipePartLeLower) ∧
    (∀ l, normalizeRecipeParts (some (Json.obj [("B", Json.num 2), ("a", Json.num 3)])) =
        some l →
      l.Pairwise recipePartLeRaw ∧
        (((([("B", Json.num 2), ("a", Json.num 3)] :
            List (String × Json)).map Prod.fst).Nodup) →
          (l.map (fun p => p.itemId)).Nodup)) :=
  ⟨fun l hl => (c8_recipe_parts_sorted (some (Json.arr c8ArrJson))).1 c8ArrJson l rfl hl,
    fun l hl => (c8_recipe_parts_sorted
      (some (Json.obj [("B", Json.num 2), ("a", Json.num 3)]))).2
      [("B", Json.num 2), ("a", Json.num 3)] l rfl hl⟩

theorem canonCmp_le_iff (l r : CanonicalItem) :
    canonCmp l r ≤ 0 ↔
      (r.diffReport.severity < l.diffReport.severity ∨
        (l.diffReport.severity = r.diffReport.severity ∧
          localeCompare l.displayName r.displayName ≤ 0)) := by
  unfold canonCmp
  by_cases h : r.diffReport.severity = l.diffReport.severity
  · rw [if_neg (by simpa using h)]
    constructor
    · intro hlc
      exact Or.inr ⟨h.symm, hlc⟩
    · rintro (hlt | ⟨_, hlc⟩)
      · omega
      · exact hlc
  · rw [if_pos h]
    constructor
    · intro hle
      left
      omega
    · rintro (hlt | ⟨heq, _⟩)
      · omega
      · exact absurd heq.symm h

instance : IsTotal CanonicalItem canonLe := by
  constructor
  intro a b
  show canonCmp a b ≤ 0 ∨ canonCmp b a ≤ 0
  rw [canonCmp_le_iff, canonCmp_le_iff]
  rcases Nat.lt_trichotomy a.diffReport.severity b.diffReport.severity with h | h | h
  · exact Or.inr (Or.inl h)
  · rcases localeCompare_le_total a.displayName b.displayName with hlc | hlc
    · exact Or.inl (Or.inr ⟨h, hlc⟩)
    · exact Or.inr (Or.inr ⟨h.symm, hlc⟩)
  · exact Or.inl (Or.inl h)

instance : IsTrans CanonicalItem canonLe := by
  constructor
  intro a b c hab hbc
  have hab' := (canonCmp_le_iff a b).mp hab
  have hbc' := (canonCmp_le_iff b c).mp hbc
  show canonCmp a c ≤ 0
  rw [canonCmp_le_iff]
  rcases hab' with h1 | ⟨h1, hl1⟩
  · rcases hbc' with h2 | ⟨h2, _⟩
    · exact Or.inl (by omega)
    · exact Or.inl (by omega)
  · rcases hbc' with h2 | ⟨h2, hl2⟩
    · exact Or.inl (by omega)
    · exact Or.inr ⟨by omega, localeCompare_le_trans hl1 hl2⟩

/-- C9 amended: the resolver's output is sorted by strictly descending
severity, entities of equal severity being ordered by the locale comparison
of their display names (ascending); that comparison is case-insensitive in
its primary pass, but display names differing only in letter case do NOT
compare as equal - lowercase orders before uppercase (see the
counterexample). -/
theorem c9_output_sorted (nbs : SourceId → Option (List SourceItem))
    (enabled : List SourceId) (t : ℚ) :
    (mergeAndDiffItems nbs enabled t).Pairwise (fun a b =>
      b.diffReport.severity < a.diffReport.severity ∨
        (a.diffReport.severity = b.diffReport.severity ∧
          localeCompare a.displayName b.displayName ≤ 0)) := by
  unfold mergeAndDiffItems
  exact (List.sorted_insertionSort canonLe _).imp (fun hab => (canonCmp_le_iff _ _).mp hab)

/-- One witness item for the C9 counterexample run. -/
def c9Item (nm : String) : SourceItem :=
  { sourceId := .ardb, sourceItemId := none, name := some nm, type := none,
    rarity := none, value := none, weight := none, inputs := none, outputs := none }

/-- The C9 counterexample input: one provider supplies `"Apple"` first and
`"apple"` second; they share the name key but never merge (same provider), so
two equal-severity canonical items with case-variant display names result. -/
def c9Nbs : SourceId → Option (List SourceItem) := fun s =>
  if s = SourceId.ardb then some [c9Item "Apple", c9Item "apple"] else none

/-- C9 counterexample: the two case-variant display names do not compare as
equal under the tie-break - `localeCompare "Apple" "apple"` is positive, and
the (stable) sort therefore reorders the creation order `["Apple", "apple"]`
into `["apple", "Apple"]`, which equality of the tie-break comparator would
have left untouched. -/
theorem c9_counterexample :
    (mergeAndDiffItems c9Nbs [SourceId.ardb] (93 / 100)).map (fun c => c.displayName) =
      ["apple", "Apple"] ∧
    (mergeAndDiffItems c9Nbs [SourceId.ardb] (93 / 100)).map
      (fun c => c.diffReport.severity) = [0, 0] ∧
    localeCompare "Apple" "apple" ≠ 0 :=
  ⟨by decide, by decide, by decide⟩

theorem runOps_append (fault : ℕ → Bool) :
    ∀ (ops1 ops2 : List DbOp) (k : ℕ) (db : Db),
      runOps fault k db (ops1 ++ ops2) =
        match runOps fault k db ops1 with
        | .ok dbmid => runOps fault (k + ops1.length) dbmid ops2
        | .error e => .error e := by
  intro ops1
  induction ops1 with
  | nil =>
    intro ops2 k db
    simp [runOps]
  | cons op rest ih =>
    intro ops2 k db
    rw [List.cons_append, runOps, runOps]
    by_cases hf : fault k
    · simp only [if_pos hf]
    · simp only [if_neg hf]
      rcases ha : applyOp db op with e | db1
      · simp only []
      · simp only []
        rw [ih ops2 (k + 1) db1]
        have harith : k + 1 + rest.length = k + (op :: rest).length := by
          simp [List.length_cons]
          omega
        rw [harith]

theorem runOps_insertLinks (fault : ℕ → Bool) :
    ∀ (rows : List LinkRow) (k : ℕ) (db db' : Db),
      runOps fault k db (rows.map DbOp.insertLink) = .ok db' →
      db' = { db with links := db.links ++ rows } := by
  intro rows
  induction rows with
  | nil =>
    intro k db db' h
    injection h with h
    subst h
    simp
  | cons row rest ih =>
    intro k db db' h
    rw [List.map_cons, runOps] at h
    by_cases hf : fault k
    · rw [if_pos hf] at h
      cases h
    · rw [if_neg hf] at h
      have happ : applyOp db (DbOp.insertLink row) =
          .ok { db with links := db.links ++ [row] } := rfl
      rw [happ] at h
      have := ih (k + 1) { db with links := db.links ++ [row] } db' h
      rw [this]
      simp

theorem itemOps_cons (cachedAt : String) (item : Json) (rest : List Json) :
    itemOps cachedAt (item :: rest) =
      (match itemRowOf cachedAt item with
        | none => []
        | some row =>
          DbOp.insertItem row ::
            (extractLinks item).map (fun l => DbOp.insertLink (linkRowOf row.id l))) ++
        itemOps cachedAt rest := by
  unfold itemOps
  rw [List.flatMap_cons]

theorem runOps_itemOps (fault : ℕ → Bool) (cachedAt : String) :
    ∀ (rawItems : List Json) (k : ℕ) (db db' : Db),
      runOps fault k db (itemOps cachedAt rawItems) = .ok db' →
      db' = { items := db.items ++ itemsOf cachedAt rawItems,
              links := db.links ++ linksOf cachedAt rawItems,
              syncState := db.syncState } := by
  intro rawItems
  induction rawItems with
  | nil =>
    intro k db db' h
    injection h with h
    subst h
    simp [itemsOf, linksOf]
  | cons item rest ih =>
    intro k db db' h
    rw [itemOps_cons] at h
    rcases hrow : itemRowOf cachedAt item with _ | row
    · simp only [hrow, List.nil_append] at h
      have := ih k db db' h
      rw [this]
      have hitems : itemsOf cachedAt (item :: rest) = itemsOf cachedAt rest := by
        unfold itemsOf
        rw [List.filterMap_cons, hrow]
      have hlinks : linksOf cachedAt (item :: rest) = linksOf cachedAt rest := by
        unfold linksOf
        rw [List.flatMap_cons, hrow]
        rfl
      rw [hitems, hlinks]
    · simp only [hrow, List.cons_append] at h
      rw [runOps] at h
      by_cases hf : fault k
      · rw [if_pos hf] at h
        cases h
      · rw [if_neg hf] at h
        by_cases hdup : db.items.any (fun r => r.id = row.id)
        · have happ : applyOp db (DbOp.insertItem row) =
              .error "UNIQUE constraint failed: metaforge_items.id" := by
            simp only [applyOp]
            rw [if_pos hdup]
          simp only [happ] at h
          exact absurd h (by simp)
        · have happ : applyOp db (DbOp.insertItem row) =
              .ok { items := db.items ++ [row], links := db.links,
                    syncState := db.syncState } := by
            simp only [applyOp]
            rw [if_neg hdup]
          simp only [happ] at h
          rw [runOps_append] at h
          have hmaps : List.map (fun l => DbOp.insertLink (linkRowOf row.id l))
              (extractLinks item) =
              ((extractLinks item).map (fun l => linkRowOf row.id l)).map DbOp.insertLink := by
            rw [List.map_map]
            rfl
          rw [hmaps] at h
          rcases hmid : runOps fault (k + 1)
              { items := db.items ++ [row], links := db.links, syncState := db.syncState }
              (((extractLinks item).map (fun l => linkRowOf row.id l)).map DbOp.insertLink)
            with e | dbmid
          · rw [hmid] at h
            cases h
          · rw [hmid] at h
            have hmid' := runOps_insertLinks fault _ _ _ _ hmid
            subst hmid'
            have hrest := ih _ _ _ h
            rw [hrest]
            have hitems : itemsOf cachedAt (item :: rest) =
                row :: itemsOf cachedAt rest := by
              unfold itemsOf
              rw [List.filterMap_cons, hrow]
            have hlinks : linksOf cachedAt (item :: rest) =
                (extractLinks item).map (fun l => linkRowOf row.id l) ++
                  linksOf cachedAt rest := by
              unfold linksOf
              rw [List.flatMap_cons, hrow]
            rw [hitems, hlinks]
            simp

/-- The sync-state row the transaction writes for a fetch result. -/
def syncRowOf (fr : SourceFetchResult) : SyncRow :=
  { lastSyncedAt := fr.fetchedAt
    version := fr.versionOrCommit
    itemCount := (fr.itemsRaw.filter (·.isObjLike)).length }

/-- C7: the resync write of the snapshot store is transactional.  On success
the visible state is exactly the freshly derived rows - every prior item and
link row is gone, the reinserted rows are those extracted from the fetch
result, and the sync-state singleton is updated.  On any failing step (an
environmental fault at any position, or the one constraint these statements
can violate) the prior state stays visible unchanged - every row readable as
before - and the error is rethrown; the read path `ensureFreshMetaForgeSnapshot`
propagates it to its caller. -/
theorem c7_persist_transactional (fault : ℕ → Bool) (db : Db) (fr : SourceFetchResult) :
    (∀ e, (persistFetchResult fault db fr).2 = some e →
      (persistFetchResult fault db fr).1 = db) ∧
    ((persistFetchResult fault db fr).2 = none →
      (persistFetchResult fault db fr).1 =
        { items := itemsOf fr.fetchedAt (fr.itemsRaw.filter (·.isObjLike)),
          links := linksOf fr.fetchedAt (fr.itemsRaw.filter (·.isObjLike)),
          syncState := some (syncRowOf fr) }) ∧
    (∀ e, (persistFetchResult fault db fr).2 = some e →
      ensureFreshMetaForgeSnapshot db true (.ok fr) fault = .error e) := by
  rcases hrun : runOps fault 0 db (opsFor fr) with e0 | db1
  · have hpersist : persistFetchResult fault db fr = (db, some e0) := by
      unfold persistFetchResult
      rw [hrun]
    rw [hpersist]
    refine ⟨fun e _ => rfl, fun hnone => absurd hnone (by simp), ?_⟩
    intro e he
    injection he with he
    subst he
    unfold ensureFreshMetaForgeSnapshot
    rw [if_pos rfl]
    simp only [hpersist]
  · have hpersist : persistFetchResult fault db fr = (db1, none) := by
      unfold persistFetchResult
      rw [hrun]
    rw [hpersist]
    refine ⟨fun e he => absurd he (by simp), ?_, fun e he => absurd he (by simp)⟩
    intro _
    have hops : opsFor fr = DbOp.deleteLinks :: DbOp.deleteItems ::
        (itemOps fr.fetchedAt (fr.itemsRaw.filter (·.isObjLike)) ++
          [DbOp.writeState (syncRowOf fr)]) := rfl
    rw [hops, runOps] at hrun
    by_cases hf0 : fault 0
    · rw [if_pos hf0] at hrun
      exact absurd hrun (by simp)
    · rw [if_neg hf0] at hrun
      have h1 : applyOp db DbOp.deleteLinks =
          .ok { items := db.items, links := [], syncState := db.syncState } := rfl
      simp only [h1] at hrun
      rw [runOps] at hrun
      by_cases hf1 : fault 1
      · rw [if_pos hf1] at hrun
        exact absurd hrun (by simp)
      · rw [if_neg hf1] at hrun
        have h2 : applyOp { items := db.items, links := [], syncState := db.syncState }
            DbOp.deleteItems =
            .ok { items := [], links := [], syncState := db.syncState } := rfl
        simp only [h2] at hrun
        rw [runOps_append] at hrun
        rcases hb : runOps fault 2 { items := [], links := [], syncState := db.syncState }
            (itemOps fr.fetchedAt (fr.itemsRaw.filter (·.isObjLike))) with e2 | dbmid
        · rw [hb] at hrun
          exact absurd hrun (by simp)
        · simp only [hb] at hrun
          have hmid := runOps_itemOps fault fr.fetchedAt _ _ _ _ hb
          rw [runOps] at hrun
          by_cases hfw : fault (2 + (itemOps fr.fetchedAt
              (fr.itemsRaw.filter (·.isObjLike))).length)
          · rw [if_pos hfw] at hrun
            exact absurd hrun (by simp)
          · rw [if_neg hfw] at hrun
            have h3 : applyOp dbmid (DbOp.writeState (syncRowOf fr)) =
                .ok { items := dbmid.items, links := dbmid.links,
                      syncState := some (syncRowOf fr) } := rfl
            simp only [h3, runOps] at hrun
            injection hrun with hrun
            rw [← hrun, hmid]
            simp

/-- Prior store contents for the witness of `c7_persist_transactional`. -/
def c7Db : Db :=
  { items := [{ id := "old", name := none, itemType := none, rarity := none, value := none,
                weight := none, icon := none, updatedAt := none, cachedAt := "t0",
                rawJson := Json.null }],
    links := [],
    syncState := some { lastSyncedAt := "t0", version := "v0", itemCount := 1 } }

/-- A fetch result whose duplicate ids make the reinsert step fail. -/
def c7FrDup : SourceFetchResult :=
  { sourceId := .metaforge, fetchedAt := "t1", versionOrCommit := "v1",
    itemsRaw := [Json.obj [("id", Json.str "x")], Json.obj [("id", Json.str "x")]] }

/-- A fetch result whose persist succeeds. -/
def c7FrGood : SourceFetchResult :=
  { sourceId := .metaforge, fetchedAt := "t1", versionOrCommit := "v1",
    itemsRaw := [Json.obj [("id", Json.str "x"), ("name", Json.str "Thing")]] }

theorem c7_persist_transactional_witness :
    ((persistFetchResult (fun _ => false) c7Db c7FrDup).1 = c7Db) ∧
    (ensureFreshMetaForgeSnapshot c7Db true (.ok c7FrDup) (fun _ => false) =
      .error "UNIQUE constraint failed: metaforge_items.id") ∧
    ((persistFetchResult (fun _ => false) c7Db c7FrGood).1 =
      { items := itemsOf c7FrGood.fetchedAt (c7FrGood.itemsRaw.filter (·.isObjLike)),
        links := linksOf c7FrGood.fetchedAt (c7FrGood.itemsRaw.filter (·.isObjLike)),
        syncState := some (syncRowOf c7FrGood) }) := by
  have h1 := c7_persist_transactional (fun _ => false) c7Db c7FrDup
  have h2 := c7_persist_transactional (fun _ => false) c7Db c7FrGood
  exact ⟨h1.1 "UNIQUE constraint failed: metaforge_items.id" (by decide),
    h1.2.2 "UNIQUE constraint failed: metaforge_items.id" (by decide),
    h2.2.1 (by decide)⟩

/-- The eligibility test of the fuzzy fallback, as the loop applies it: the
candidate lacks an entry for this provider and does not carry an id-key. -/
def fuzzyEligible (s : SourceId) (c : CanonicalItem) : Bool :=
  !(c.bySource s).isSome && !(strStartsWith c.nameKey "id:")

/-- Modelled from the spec: the maximum-scoring fuzzy candidate, ties going
to the earlier-created canonical entity - walking the entities in creation
order and keeping the incumbent on equal scores.  `k` is the index of the
first entity of the remaining list. -/
def specBestAux (s : SourceId) (key : String) : List CanonicalItem → ℕ → Option (ℕ × ℚ)
  | [], _ => none
  | c :: rest, k =>
    if fuzzyEligible s c then
      match specBestAux s key rest (k + 1) with
      | some (j, q) =>
        if q > similarity key c.nameKey then some (j, q)
        else some (k, similarity key c.nameKey)
      | none => some (k, similarity key c.nameKey)
    else specBestAux s key rest (k + 1)

/-- How the loop's running accumulator absorbs the best candidate of the
remaining list: only a strictly better score replaces it. -/
def fuzzyCombine (acc : Option ℕ × ℚ) : Option (ℕ × ℚ) → Option ℕ × ℚ
  | none => acc
  | some (i, q) => if q > acc.2 then (some i, q) else acc

theorem fuzzyLoop_eq_combine (s : SourceId) (key : String) :
    ∀ (items' : List CanonicalItem) (k : ℕ) (bi : Option ℕ) (bs : ℚ),
      fuzzyLoop s key (items'.enumFrom k) bi bs =
        fuzzyCombine (bi, bs) (specBestAux s key items' k) := by
  intro items'
  induction items' with
  | nil =>
    intro k bi bs
    rfl
  | cons c rest ih =>
    intro k bi bs
    rw [show List.enumFrom k (c :: rest) = (k, c) :: List.enumFrom (k + 1) rest from rfl]
    rw [fuzzyLoop, specBestAux]
    by_cases h1 : (c.bySource s).isSome
    · have helig : fuzzyEligible s c = false := by simp [fuzzyEligible, h1]
      rw [if_pos h1, helig]
      simp only [Bool.false_eq_true, if_false]
      exact ih (k + 1) bi bs
    · by_cases h2 : strStartsWith c.nameKey "id:" = true
      · have helig : fuzzyEligible s c = false := by simp [fuzzyEligible, h2]
        rw [if_neg h1, if_pos h2, helig]
        simp only [Bool.false_eq_true, if_false]
        exact ih (k + 1) bi bs
      · have helig : fuzzyEligible s c = true := by simp [fuzzyEligible, h1, h2]
        rw [if_neg h1, if_neg h2, helig]
        simp only [if_true]
        rcases htail : specBestAux s key rest (k + 1) with _ | ⟨j, q⟩
        · by_cases h3 : similarity key c.nameKey > bs
          · rw [if_pos h3, ih (k + 1) (some k) (similarity key c.nameKey), htail]
            simp [fuzzyCombine, h3]
          · rw [if_neg h3, ih (k + 1) bi bs, htail]
            simp [fuzzyCombine, h3]
        · by_cases h3 : similarity key c.nameKey > bs
          · rw [if_pos h3, ih (k + 1) (some k) (similarity key c.nameKey), htail]
            by_cases h4 : q > similarity key c.nameKey
            · simp only [fuzzyCombine, if_pos h4]
              rw [if_pos (by linarith : q > bs)]
            · simp only [fuzzyCombine, if_neg h4]
              rw [if_pos h3]
          · rw [if_neg h3, ih (k + 1) bi bs, htail]
            by_cases h4 : q > similarity key c.nameKey
            · simp [fuzzyCombine, h4]
            · simp only [fuzzyCombine, if_neg h4]
              rw [if_neg (show ¬ q > bs by push_neg at h3 h4 ⊢; linarith), if_neg h3]

theorem findFuzzy_eq_combine (items : List CanonicalItem) (s : SourceId) (key : String) :
    findFuzzy items s key = fuzzyCombine (none, 0) (specBestAux s key items 0) := by
  unfold findFuzzy
  rw [show items.enum = items.enumFrom 0 from rfl]
  exact fuzzyLoop_eq_combine s key items 0 none 0

theorem specBestAux_sound (s : SourceId) (key : String) :
    ∀ (items' : List CanonicalItem) (k : ℕ),
      (∀ i q, specBestAux s key items' k = some (i, q) →
        k ≤ i ∧
        (∃ c, items'.get? (i - k) = some c ∧ fuzzyEligible s c = true ∧
          q = similarity key c.nameKey) ∧
        (∀ j c', items'.get? j = some c' → fuzzyEligible s c' = true →
          similarity key c'.nameKey ≤ q) ∧
        (∀ j c', j + k < i → items'.get? j = some c' → fuzzyEligible s c' = true →
          similarity key c'.nameKey < q)) ∧
      (specBestAux s key items' k = none →
        ∀ j c', items'.get? j = some c' → fuzzyEligible s c' = false) := by
  intro items'
  induction items' with
  | nil =>
    intro k
    constructor
    · intro i q h
      cases h
    · intro _ j c' hj
      simp at hj
  | cons c rest ih =>
    intro k
    constructor
    · intro i q h
      rw [specBestAux] at h
      by_cases helig : fuzzyEligible s c = true
      · rw [if_pos helig] at h
        rcases htail : specBestAux s key rest (k + 1) with _ | ⟨j0, q0⟩
        · simp only [htail] at h
          injection h with h
          injection h with hi hq
          subst hi
          subst hq
          refine ⟨le_refl k, ⟨c, by simp, helig, rfl⟩, ?_, ?_⟩
          · intro j c' hj helig'
            cases j with
            | zero =>
              injection hj with hj
              subst hj
              exact le_refl _
            | succ j' =>
              have := (ih (k + 1)).2 htail j' c' hj
              rw [helig'] at this
              cases this
          · intro j c' hjk _ _
            omega
        · simp only [htail] at h
          obtain ⟨hk1, ⟨c0, hget0, helig0, hq0⟩, hmax0, hearly0⟩ :=
            (ih (k + 1)).1 j0 q0 htail
          by_cases hgt : q0 > similarity key c.nameKey
          · rw [if_pos hgt] at h
            injection h with h
            injection h with hi hq
            subst hi
            subst hq
            refine ⟨by omega, ⟨c0, ?_, helig0, hq0⟩, ?_, ?_⟩
            · have harith : j0 - k = (j0 - (k + 1)) + 1 := by omega
              rw [harith]
              exact hget0
            · intro j c' hj helig'
              cases j with
              | zero =>
                injection hj with hj
                subst hj
                exact le_of_lt hgt
              | succ j' =>
                exact hmax0 j' c' hj helig'
            · intro j c' hjk hj helig'
              cases j with
              | zero =>
                injection hj with hj
                subst hj
                exact hgt
              | succ j' =>
                exact hearly0 j' c' (by omega) hj helig'
          · rw [if_neg hgt] at h
            injection h with h
            injection h with hi hq
            subst hi
            subst hq
            refine ⟨le_refl k, ⟨c, by simp, helig, rfl⟩, ?_, ?_⟩
            · intro j c' hj helig'
              cases j with
              | zero =>
                injection hj with hj
                subst hj
                exact le_refl _
              | succ j' =>
                push_neg at hgt
                exact le_trans (hmax0 j' c' hj helig') hgt
            · intro j c' hjk _ _
              omega
      · rw [if_neg helig] at h
        obtain ⟨hk1, ⟨c0, hget0, helig0, hq0⟩, hmax0, hearly0⟩ := (ih (k + 1)).1 i q h
        refine ⟨by omega, ⟨c0, ?_, helig0, hq0⟩, ?_, ?_⟩
        · have harith : i - k = (i - (k + 1)) + 1 := by omega
          rw [harith]
          exact hget0
        · intro j c' hj helig'
          cases j with
          | zero =>
            injection hj with hj
            subst hj
            rw [helig'] at helig
            exact absurd rfl helig
          | succ j' =>
            exact hmax0 j' c' hj helig'
        · intro j c' hjk hj helig'
          cases j with
          | zero =>
            injection hj with hj
            subst hj
            rw [helig'] at helig
            exact absurd rfl helig
          | succ j' =>
            exact hearly0 j' c' (by omega) hj helig'
    · intro h j c' hj
      rw [specBestAux] at h
      by_cases helig : fuzzyEligible s c = true
      · rw [if_pos helig] at h
        rcases htail : specBestAux s key rest (k + 1) with _ | ⟨j0, q0⟩
        · simp only [htail] at h
          cases h
        · simp only [htail] at h
          by_cases hgt : q0 > similarity key c.nameKey
          · rw [if_pos hgt] at h
            cases h
          · rw [if_neg hgt] at h
            cases h
      · rw [if_neg helig] at h
        cases j with
        | zero =>
          injection hj with hj
          subst hj
          simpa using helig
        | succ j' =>
          exact (ih (k + 1)).2 h j' c' hj

theorem bigrams_length (v : String) : (bigrams v).length = v.data.length + 1 := by
  unfold bigrams
  rw [List.length_map, List.length_zip]
  simp only [List.tail_cons, List.length_cons, List.length_append, List.length_singleton,
    List.length_nil]
  omega

theorem countOverlap_foldl (rb : List String) :
    ∀ (acc : ℕ) (lb : List String),
      (rb.foldl (fun (acc : ℕ × List String) token =>
        if token ∈ acc.2 then (acc.1 + 1, acc.2.erase token) else acc) (acc, lb)).1 =
      acc + ((rb : Multiset String) ∩ (lb : Multiset String)).card := by
  induction rb with
  | nil =>
    intro acc lb
    simp
  | cons t rest ih =>
    intro acc lb
    rw [List.foldl_cons]
    by_cases hmem : t ∈ lb
    · rw [show (if t ∈ (acc, lb).2 then ((acc, lb).1 + 1, (acc, lb).2.erase t) else (acc, lb))
          = (acc + 1, lb.erase t) from by simp [hmem]]
      rw [ih]
      have hcard : ((t :: rest : List String) : Multiset String) ∩ (lb : Multiset String) =
          t ::ₘ ((rest : Multiset String) ∩ ((lb.erase t : List String) : Multiset String)) := by
        rw [← Multiset.cons_coe, Multiset.cons_inter_of_pos _ (Multiset.mem_coe.mpr hmem)]
        rw [← Multiset.coe_erase]
      rw [hcard, Multiset.card_cons]
      omega
    · rw [show (if t ∈ (acc, lb).2 then ((acc, lb).1 + 1, (acc, lb).2.erase t) else (acc, lb))
          = (acc, lb) from by simp [hmem]]
      rw [ih]
      have hcard : ((t :: rest : List String) : Multiset String) ∩ (lb : Multiset String) =
          (rest : Multiset String) ∩ (lb : Multiset String) := by
        rw [← Multiset.cons_coe, Multiset.cons_inter_of_neg _ (by
          rw [Multiset.mem_coe]
          exact hmem)]
      rw [hcard]

theorem countOverlap_eq_card (lb rb : List String) :
    countOverlap lb rb = ((lb : Multiset String) ∩ (rb : Multiset String)).card := by
  unfold countOverlap
  rw [countOverlap_foldl rb 0 lb, Multiset.inter_comm]
  omega

/-- Modelled from the spec: bigram Dice similarity as the claim phrases it -
twice the multiset-intersection size of the padded character 2-grams over the
sum of the two bigram counts. -/
def specDice (left right : String) : ℚ :=
  2 * ((((bigrams left : Multiset String) ∩ (bigrams right : Multiset String)).card : ℚ)) /
    (((bigrams left).length : ℚ) + ((bigrams right).length : ℚ))

theorem similarity_eq_specDice (l r : String) (hl : l ≠ "") (hr : r ≠ "") :
    similarity l r = specDice l r := by
  unfold similarity
  by_cases heq : l = r
  · subst heq
    rw [if_pos rfl]
    unfold specDice
    have hself : (bigrams l : Multiset String) ∩ (bigrams l : Multiset String) =
        (bigrams l : Multiset String) :=
      le_antisymm (Multiset.inter_le_left _ _) (Multiset.le_inter le_rfl le_rfl)
    rw [hself, Multiset.coe_card]
    have hpos : (0 : ℚ) < ((bigrams l).length : ℚ) := by
      rw [bigrams_length]
      positivity
    rw [eq_comm, div_eq_one_iff_eq (by linarith)]
    ring
  · rw [if_neg heq]
    rw [if_neg (show ¬(l = "" ∨ r = "") by
      push_neg
      exact ⟨hl, hr⟩)]
    have h1 : ¬((bigrams l).length = 0 ∨ (bigrams r).length = 0) := by
      rw [bigrams_length, bigrams_length]
      omega
    rw [if_neg h1]
    unfold specDice
    rw [countOverlap_eq_card]

theorem fuzzyEligible_iff (s : SourceId) (c : CanonicalItem) :
    fuzzyEligible s c = true ↔
      ((c.bySource s).isSome = false ∧ strStartsWith c.nameKey "id:" = false) := by
  simp [fuzzyEligible]

/-- C2: the fuzzy fallback of the resolver, taken only when the exact lookup
finds nothing and the key is not an id-key, behaves as specified: the
similarity score is bigram Dice similarity over boundary-padded character
2-grams with multiset intersection (for the non-empty keys being compared);
the item is assigned exactly when the maximum score over the eligible
candidates (those without an entry for this provider and without an id-key)
reaches the threshold, a score equal to the threshold merging and the
recorded confidence being the score rounded to 3 decimals; and the chosen
candidate is the maximum-scoring one, ties resolved to the earliest-created
candidate because the comparison is strict. -/
theorem c2_fuzzy_fallback (st : ResolveState) (s : SourceId) (idx : ℕ) (item : SourceItem)
    (t : ℚ)
    (hexact : findExact st.canonicalItems (st.nameIndex (getNameKey item idx)) s = none)
    (hid : strStartsWith (getNameKey item idx) "id:" = false)
    (ht : 0 < t) :
    (∀ l r, l ≠ "" → r ≠ "" → similarity l r = specDice l r) ∧
    (∀ i q, specBestAux s (getNameKey item idx) st.canonicalItems 0 = some (i, q) →
      (t ≤ q → processItem st s idx item t =
        assignTo st i s item .fuzzy (round3 q)) ∧
      (q < t → processItem st s idx item t =
        pushNew st s item (getDisplayName item idx) (getNameKey item idx))) ∧
    (specBestAux s (getNameKey item idx) st.canonicalItems 0 = none →
      processItem st s idx item t =
        pushNew st s item (getDisplayName item idx) (getNameKey item idx)) ∧
    (∀ i q, specBestAux s (getNameKey item idx) st.canonicalItems 0 = some (i, q) →
      ∃ c, st.canonicalItems.get? i = some c ∧ (c.bySource s).isSome = false ∧
        strStartsWith c.nameKey "id:" = false ∧
        q = similarity (getNameKey item idx) c.nameKey ∧
        (∀ j c', st.canonicalItems.get? j = some c' → (c'.bySource s).isSome = false →
          strStartsWith c'.nameKey "id:" = false →
          similarity (getNameKey item idx) c'.nameKey ≤ q) ∧
        (∀ j c', j < i → st.canonicalItems.get? j = some c' →
          (c'.bySource s).isSome = false → strStartsWith c'.nameKey "id:" = false →
          similarity (getNameKey item idx) c'.nameKey < q)) := by
  have hstep : processItem st s idx item t =
      match findFuzzy st.canonicalItems s (getNameKey item idx) with
      | (some bestIndex, bestScore) =>
        if bestScore ≥ t then assignTo st bestIndex s item .fuzzy (round3 bestScore)
        else pushNew st s item (getDisplayName item idx) (getNameKey item idx)
      | (none, _) => pushNew st s item (getDisplayName item idx) (getNameKey item idx) := by
    unfold processItem
    simp only [hexact, hid, Bool.false_eq_true, if_false]
  refine ⟨fun l r hl hr => similarity_eq_specDice l r hl hr, ?_, ?_, ?_⟩
  · intro i q hbest
    constructor
    · intro htq
      rw [hstep, findFuzzy_eq_combine, hbest]
      have hq0 : q > 0 := lt_of_lt_of_le ht htq
      rw [show fuzzyCombine (none, 0) (some (i, q)) = (some i, q) from by
        simp [fuzzyCombine, hq0]]
      exact if_pos htq
    · intro hqt
      rw [hstep, findFuzzy_eq_combine, hbest]
      by_cases hq0 : q > 0
      · rw [show fuzzyCombine (none, 0) (some (i, q)) = (some i, q) from by
          simp [fuzzyCombine, hq0]]
        exact if_neg (not_le.mpr hqt)
      · rw [show fuzzyCombine (none, 0) (some (i, q)) = (none, 0) from by
          simp [fuzzyCombine, hq0]]
  · intro hbest
    rw [hstep, findFuzzy_eq_combine, hbest]
    rfl
  · intro i q hbest
    obtain ⟨_, ⟨c, hget, helig, hq⟩, hmax, hearly⟩ :=
      (specBestAux_sound s (getNameKey item idx) st.canonicalItems 0).1 i q hbest
    rw [Nat.sub_zero] at hget
    obtain ⟨h1, h2⟩ := (fuzzyEligible_iff s c).mp helig
    refine ⟨c, hget, h1, h2, hq, ?_, ?_⟩
    · intro j c' hj hc1 hc2
      exact hmax j c' hj ((fuzzyEligible_iff s c').mpr ⟨hc1, hc2⟩)
    · intro j c' hji hj hc1 hc2
      exact hearly j c' (by omega) hj ((fuzzyEligible_iff s c').mpr ⟨hc1, hc2⟩)

/-- The item fed to the fuzzy fallback in the witness of `c2_fuzzy_fallback`. -/
def c2Item : SourceItem :=
  { sourceId := .metaforge, sourceItemId := none, name := some "apple", type := none,
    rarity := none, value := none, weight := none, inputs := none, outputs := none }

/-- A pre-existing canonical item with the same name key but no entry for the
incoming provider, eligible for fuzzy matching. -/
def c2Canon : CanonicalItem :=
  { canonicalId := "canonical-1"
    nameKey := "apple"
    displayName := "apple"
    bySource := fun _ => none
    matchDetails := fun _ => none
    diffReport :=
      { missingIn := []
        fieldDiffers :=
          { name := false, type := false, rarity := false, value := false, weight := false }
        recipeDiffers := false
        severity := 0
        explanation := [] } }

/-- The resolver state for the witness of `c2_fuzzy_fallback`: one eligible
canonical item and an exact-match index that knows nothing. -/
def c2St : ResolveState :=
  { canonicalItems := [c2Canon], nameIndex := fun _ => [] }

theorem c2_fuzzy_fallback_witness :
    (similarity "ab" "ab" = specDice "ab" "ab") ∧
    processItem c2St SourceId.metaforge 0 c2Item 1 =
      assignTo c2St 0 SourceId.metaforge c2Item .fuzzy (round3 1) := by
  have h := c2_fuzzy_fallback c2St SourceId.metaforge 0 c2Item 1 rfl (by decide) (by decide)
  exact ⟨h.1 "ab" "ab" (by decide) (by decide), (h.2.1 0 1 (by decide)).1 (by decide)⟩
